import Mathlib

/-!
# Parallel trapezoidal integration (`tasks/task6/main.cpp`)

A shallow embedding of the class `Integral` and of the functions it calls.

* The fields `a, b, n, tn` are C++ `int`s.  They are modelled as `Int`, and every
  `int` addition, subtraction and multiplication is followed by `wrapInt`, the
  32-bit two's-complement result (the language leaves signed overflow undefined;
  wrapping is what the compiled arithmetic instructions compute).  `int` division
  is `intDiv`: it truncates towards zero and traps on a zero divisor and on
  `INT_MIN / -1`.
* `double` is modelled as `ℝ` (exact arithmetic) in `Integral.calculateIntegral`.
  The functions of the namespace `Fp` read the same arithmetic on doubles that
  overflow to infinity and produce NaN.
* The worker threads are modelled by the list of their local sums, in the order
  the threads are created; the shared `total` is the sum of that list.  In
  `Integral.calculateIntegral` creating a thread is taken to succeed;
  `Integral.calculateIntegralOn` adds the failure of `std::thread` on a system
  with a limit on the number of threads.
* `std::stoi` is modelled after the C++ standard: `strtol` in base 10 followed
  by a range check.
* `argc` is the length of `argv`, as the C++ runtime passes them to `main`.
-/

namespace Task6

/-! ## Machine integers -/

/-- Smallest value of a 32-bit `int`. -/
def INT_MIN : Int := -2147483648

/-- Largest value of a 32-bit `int`. -/
def INT_MAX : Int := 2147483647

/-- The 32-bit two's-complement value of an `int` operation whose exact result is `x`. -/
def wrapInt (x : Int) : Int := (x + 2147483648) % 4294967296 - 2147483648

/-- Runtime traps of `int` division. -/
inductive Trap where
  | division_by_zero
  | division_overflow
  deriving DecidableEq, Repr

/-- The `int` division `x / y`: truncation towards zero; a zero divisor and
`INT_MIN / -1` trap. -/
def intDiv (x y : Int) : Except Trap Int :=
  if y = 0 then .error .division_by_zero
  else if x = INT_MIN ∧ y = -1 then .error .division_overflow
  else .ok (Int.tdiv x y)

/-- The values the loop variable takes in `for (int i = start; i < stop; ++i)`:
`start, start + 1, ..., stop - 1`, none when `stop <= start`.  The increment never
overflows, the variable staying below the `int` value `stop`. -/
def forRange (start stop : Int) : List Int :=
  (List.range (stop - start).toNat).map fun (k : Nat) => start + (k : Int)

/-! ## `std::stoi` -/

deriving instance DecidableEq for Except

/-- The exceptions the constructor can raise. -/
inductive Exception where
  | invalid_argument (what : String)
  | out_of_range (what : String)
  deriving DecidableEq, Repr

/-- The C-locale `isspace`: space and the control characters 9 to 13. -/
def isspace (c : Char) : Bool := c.toNat = 32 || (9 ≤ c.toNat && c.toNat ≤ 13)

/-- The C-locale `isdigit`. -/
def isdigit (c : Char) : Bool := 48 ≤ c.toNat && c.toNat ≤ 57

/-- Value of a decimal digit. -/
def digitValue (c : Char) : Nat := c.toNat - 48

/-- Horner evaluation of a list of decimal digits. -/
def decimalValue (digits : List Char) : Nat :=
  digits.foldl (fun acc c => acc * 10 + digitValue c) 0

/-- The optional sign in front of the digits: whether it is a minus, and what
follows it. -/
def readSign (s : List Char) : Bool × List Char :=
  match s with
  | '-' :: rest => (true, rest)
  | '+' :: rest => (false, rest)
  | _ => (false, s)

/-- The value of the digits read, with its sign, or the exception `std::stoi`
throws: `invalid_argument` when no digit was read, `out_of_range` when the value
is not an `int`. -/
def convert (negative : Bool) (digits : List Char) : Except Exception Int :=
  if digits.isEmpty then .error (.invalid_argument "stoi")
  else
    let magnitude : Int := (decimalValue digits : Nat)
    let value : Int := if negative then -magnitude else magnitude
    if value < INT_MIN ∨ INT_MAX < value then .error (.out_of_range "stoi")
    else .ok value

/-- The call `std::stoi(str)` (base 10, no position output): skip leading white
space, read an optional sign and the longest run of digits, ignore what follows.
The `what()` strings are those of libstdc++. -/
def stoi (str : String) : Except Exception Int :=
  let signed := readSign (str.toList.dropWhile isspace)
  convert signed.1 (signed.2.takeWhile isdigit)

/-! ## The class `Integral` -/

/-- The data members `a, b, n, tn` of the class. -/
structure Integral where
  a : Int
  b : Int
  n : Int
  tn : Int
  deriving DecidableEq, Repr

/-- What a run of the constructor does: the tokens it handed to `std::stoi`, in
order, and the object it built or the exception it threw. -/
structure Construction where
  parsed : List String
  result : Except Exception Integral

/-- The constructor `Integral(int& argc, char** argv)` (named `ctor` here, the
class name being taken by the structure); `argv` holds the `argc` argument
strings, the program name first. -/
def Integral.ctor (argv : List String) : Construction :=
  let argc : Int := argv.length
  if argc ≠ 5 then
    ⟨[], .error (.invalid_argument "Wrong number of arguments")⟩
  else
    let s1 := argv.getD 1 ""
    let s2 := argv.getD 2 ""
    let s3 := argv.getD 3 ""
    let s4 := argv.getD 4 ""
    match stoi s1 with
    | .error e => ⟨[s1], .error e⟩
    | .ok a =>
      match stoi s2 with
      | .error e => ⟨[s1, s2], .error e⟩
      | .ok b =>
        match stoi s3 with
        | .error e => ⟨[s1, s2, s3], .error e⟩
        | .ok n =>
          match stoi s4 with
          | .error e => ⟨[s1, s2, s3, s4], .error e⟩
          | .ok tn => ⟨[s1, s2, s3, s4], .ok ⟨a, b, n, tn⟩⟩

/-- The integrand `integralFunction(x) = sqrt(1 + exp(x))`. -/
noncomputable def Integral.integralFunction (x : ℝ) : ℝ :=
  Real.sqrt (1 + Real.exp x)

/-- The step `h = static_cast<double>(b - a) / n`. -/
noncomputable def Integral.h (self : Integral) : ℝ :=
  ((wrapInt (self.b - self.a) : Int) : ℝ) / (self.n : ℝ)

/-- The lower index `start = t * n_per_thread` of worker `t`. -/
def Integral.start (n_per_thread t : Int) : Int :=
  wrapInt (t * n_per_thread)

/-- The upper index `end = (t == tn - 1) ? n : (t + 1) * n_per_thread` of worker `t`. -/
def Integral.stop (self : Integral) (n_per_thread t : Int) : Int :=
  if t = wrapInt (self.tn - 1) then self.n else wrapInt (wrapInt (t + 1) * n_per_thread)

/-- The pairs `(start, end)` of the workers `t = 0, 1, ..., tn - 1`, in the order
the threads are created. -/
def Integral.threadRanges (self : Integral) : Except Trap (List (Int × Int)) :=
  match intDiv self.n self.tn with
  | .error e => .error e
  | .ok n_per_thread =>
    .ok ((forRange 0 self.tn).map fun t =>
      (Integral.start n_per_thread t, self.stop n_per_thread t))

/-- The sample point `x_i = a + i * h`. -/
noncomputable def Integral.x_i (self : Integral) (h : ℝ) (i : Int) : ℝ :=
  (self.a : ℝ) + (i : ℝ) * h

/-- The sample point `x_next = a + (i + 1) * h`. -/
noncomputable def Integral.x_next (self : Integral) (h : ℝ) (i : Int) : ℝ :=
  (self.a : ℝ) + ((wrapInt (i + 1) : Int) : ℝ) * h

/-- The term one loop iteration adds to `local_sum`. -/
noncomputable def Integral.term (self : Integral) (h : ℝ) (i : Int) : ℝ :=
  (Integral.integralFunction (self.x_i h i) + Integral.integralFunction (self.x_next h i)) * h / 2

/-- The body of a worker thread: its `local_sum` over the indices `[start, stop)`. -/
noncomputable def Integral.localSum (self : Integral) (h : ℝ) (start stop : Int) : ℝ :=
  (forRange start stop).foldl (fun local_sum i => local_sum + self.term h i) 0

/-- The method `calculateIntegral()`: `total` once every worker has added its
local sum, or the trap of the division `n / tn`. -/
noncomputable def Integral.calculateIntegral (self : Integral) : Except Trap ℝ :=
  match self.threadRanges with
  | .error e => .error e
  | .ok ranges =>
    let h := self.h
    let local_sums := ranges.map fun r => self.localSum h r.1 r.2
    .ok (local_sums.foldl (fun total local_sum => total + local_sum) 0)

/-- The number of worker threads `calculateIntegral()` creates: one for each
pair `(start, end)`, none when the division `n / tn` traps, the division coming
before the loop that creates them. -/
def Integral.workersLaunched (self : Integral) : Nat :=
  match self.threadRanges with
  | .error _ => 0
  | .ok ranges => ranges.length

/-! ## Failure to start a worker thread -/

/-- A value of type `double`. -/
inductive Double where
  | finite (x : ℝ)
  | posInf
  | negInf
  | nan

/-- The largest finite `double`, `(2 - 2^(-52)) * 2^1023`. -/
noncomputable def DBL_MAX : ℝ := 2 ^ 1024 - 2 ^ 971

/-- The `double` of an operation whose exact result is `r`. -/
noncomputable def Double.ofReal (r : ℝ) : Double :=
  if DBL_MAX < r then .posInf else if r < -DBL_MAX then .negInf else .finite r

/-- The conversion of an `int` to `double` (exact). -/
noncomputable def Double.ofInt (i : Int) : Double := .finite (i : ℝ)

/-- The `double` addition. -/
noncomputable def Double.add : Double → Double → Double
  | .finite x, .finite y => Double.ofReal (x + y)
  | .finite _, .posInf => .posInf
  | .finite _, .negInf => .negInf
  | .posInf, .finite _ => .posInf
  | .posInf, .posInf => .posInf
  | .posInf, .negInf => .nan
  | .negInf, .finite _ => .negInf
  | .negInf, .posInf => .nan
  | .negInf, .negInf => .negInf
  | .nan, _ => .nan
  | _, .nan => .nan

/-- The infinity of the sign of `x`, and NaN for `x = 0`: the product of an
infinity with the finite `x`. -/
noncomputable def Double.infTimes (positive : Bool) (x : ℝ) : Double :=
  if x = 0 then .nan
  else if (0 < x) = (positive = true) then .posInf else .negInf

/-- The `double` multiplication. -/
noncomputable def Double.mul : Double → Double → Double
  | .finite x, .finite y => Double.ofReal (x * y)
  | .finite x, .posInf => Double.infTimes true x
  | .finite x, .negInf => Double.infTimes false x
  | .posInf, .finite y => Double.infTimes true y
  | .negInf, .finite y => Double.infTimes false y
  | .posInf, .posInf => .posInf
  | .posInf, .negInf => .negInf
  | .negInf, .posInf => .negInf
  | .negInf, .negInf => .posInf
  | .nan, _ => .nan
  | _, .nan => .nan

/-- The `double` division. -/
noncomputable def Double.div : Double → Double → Double
  | .finite x, .finite y =>
    if y = 0 then (if x = 0 then .nan else if 0 < x then .posInf else .negInf)
    else Double.ofReal (x / y)
  | .finite _, .posInf => .finite 0
  | .finite _, .negInf => .finite 0
  | .posInf, .finite y => if 0 ≤ y then .posInf else .negInf
  | .negInf, .finite y => if 0 ≤ y then .negInf else .posInf
  | .posInf, .posInf => .nan
  | .posInf, .negInf => .nan
  | .negInf, .posInf => .nan
  | .negInf, .negInf => .nan
  | .nan, _ => .nan
  | _, .nan => .nan

/-- The call `std::exp(x)`. -/
noncomputable def Double.exp : Double → Double
  | .finite x => Double.ofReal (Real.exp x)
  | .posInf => .posInf
  | .negInf => .finite 0
  | .nan => .nan

/-- The call `std::sqrt(x)`. -/
noncomputable def Double.sqrt : Double → Double
  | .finite x => if x < 0 then .nan else .finite (Real.sqrt x)
  | .posInf => .posInf
  | .negInf => .nan
  | .nan => .nan

namespace Fp

/-- The integrand `integralFunction(x) = std::sqrt(1 + std::exp(x))` on doubles. -/
noncomputable def integralFunction (x : Double) : Double :=
  Double.sqrt (Double.add (Double.ofInt 1) (Double.exp x))

/-- The step `h = static_cast<double>(b - a) / n` on doubles. -/
noncomputable def h (self : Integral) : Double :=
  Double.div (Double.ofInt (wrapInt (self.b - self.a))) (Double.ofInt self.n)

/-- The sample point `x_i = a + i * h` on doubles. -/
noncomputable def x_i (self : Integral) (h : Double) (i : Int) : Double :=
  Double.add (Double.ofInt self.a) (Double.mul (Double.ofInt i) h)

/-- The sample point `x_next = a + (i + 1) * h` on doubles. -/
noncomputable def x_next (self : Integral) (h : Double) (i : Int) : Double :=
  Double.add (Double.ofInt self.a) (Double.mul (Double.ofInt (wrapInt (i + 1))) h)

/-- The term `(integralFunction(x_i) + integralFunction(x_next)) * h / 2.0`. -/
noncomputable def term (self : Integral) (h : Double) (i : Int) : Double :=
  Double.div
    (Double.mul (Double.add (integralFunction (x_i self h i)) (integralFunction (x_next self h i))) h)
    (Double.finite 2)

/-- The `local_sum` of a worker over the indices `[start, stop)`, from `0.0`. -/
noncomputable def localSum (self : Integral) (h : Double) (start stop : Int) : Double :=
  (forRange start stop).foldl (fun local_sum i => Double.add local_sum (term self h i))
    (Double.finite 0)

/-- The method `calculateIntegral()` on doubles; the workers add their local sums
to `total` in the order of their creation. -/
noncomputable def calculateIntegral (self : Integral) : Except Trap Double :=
  match self.threadRanges with
  | .error e => .error e
  | .ok ranges =>
    let local_sums := ranges.map fun r => localSum self (h self) r.1 r.2
    .ok (local_sums.foldl (fun total local_sum => Double.add total local_sum) (Double.finite 0))

end Fp

/-! ## The function `main` -/

/-- An item written to `std::cout`: a `double` printed in fixed notation with 4
digits after the point, or the end of line of `std::endl`. -/
inductive Output where
  | fixed4 (value : ℝ)
  | endl

/-- How a run of `main` ends: it returns its exit code, or the exception of the
constructor leaves `main` uncaught, or the division traps. -/
inductive Outcome where
  | returned (code : Int)
  | uncaught (e : Exception)
  | trapped (t : Trap)

/-- What a run of `main` does: the items written to standard output, in order,
the number of worker threads created, and how the run ends. -/
structure Execution where
  stdout : List Output
  workers : Nat
  outcome : Outcome

/-- The function `main(argc, argv)`: construct the object, set the output format
(which writes nothing), compute, print the value and an end of line, return 0. -/
noncomputable def main (argv : List String) : Execution :=
  match (Integral.ctor argv).result with
  | .error e => ⟨[], 0, .uncaught e⟩
  | .ok i =>
    match i.calculateIntegral with
    | .error t => ⟨[], i.workersLaunched, .trapped t⟩
    | .ok total => ⟨[.fixed4 total, .endl], i.workersLaunched, .returned 0⟩

/-! ## Specification-side definitions -/

/-- The composite trapezoidal sum, as the specification writes it: the sum over
`i` in `[0, n)` of `(f(a + i*h) + f(a + (i+1)*h)) * h / 2` with `h = (b - a) / n`. -/
noncomputable def trapezoidalSum (a b : Int) (n : Nat) : ℝ :=
  ∑ i in Finset.range n,
    (Integral.integralFunction ((a : ℝ) + (i : ℝ) * (((b : ℝ) - (a : ℝ)) / (n : ℝ)))
      + Integral.integralFunction ((a : ℝ) + ((i : ℝ) + 1) * (((b : ℝ) - (a : ℝ)) / (n : ℝ))))
      * (((b : ℝ) - (a : ℝ)) / (n : ℝ)) / 2

/-- The endpoint form of the trapezoidal rule, as the specification writes it:
`h * ((f(a) + f(b)) / 2 + sum over i in [1, n-1] of f(a + i*h))` with
`h = (b - a) / n`. -/
noncomputable def endpointSum (a b : Int) (n : Nat) : ℝ :=
  (((b : ℝ) - (a : ℝ)) / (n : ℝ))
    * ((Integral.integralFunction (a : ℝ) + Integral.integralFunction (b : ℝ)) / 2
        + ∑ i in Finset.Ico 1 n,
            Integral.integralFunction ((a : ℝ) + (i : ℝ) * (((b : ℝ) - (a : ℝ)) / (n : ℝ))))

/-- A valid integer token in the specification's sense: an optional sign followed
by one or more decimal digits, and nothing else. -/
def validInteger (token : String) : Bool :=
  match token.toList with
  | '-' :: digits => !digits.isEmpty && digits.all isdigit
  | '+' :: digits => !digits.isEmpty && digits.all isdigit
  | digits => !digits.isEmpty && digits.all isdigit

/-- The token `s` begins, after optional white space, with an optionally signed run
of decimal digits, the longest there is, that denotes `v`, and `v` is an `int`. -/
def LeadingInteger (s : String) (v : Int) : Prop :=
  ∃ ws sign digits rest : List Char,
    s.toList = ws ++ sign ++ digits ++ rest
      ∧ (∀ c ∈ ws, isspace c = true)
      ∧ (sign = [] ∨ sign = ['+'] ∨ sign = ['-'])
      ∧ digits ≠ []
      ∧ (∀ c ∈ digits, isdigit c = true)
      ∧ (∀ c ∈ rest.head?, isdigit c = false)
      ∧ v = (if sign = ['-'] then -((decimalValue digits : Nat) : Int)
              else ((decimalValue digits : Nat) : Int))
      ∧ INT_MIN ≤ v ∧ v ≤ INT_MAX

/-- The lower index of worker `t` computed in `ℕ`. -/
def natStart (N T t : ℕ) : ℕ := t * (N / T)

/-- The upper index of worker `t` computed in `ℕ`. -/
def natStop (N T t : ℕ) : ℕ := if t = T - 1 then N else (t + 1) * (N / T)

/-! ## Auxiliary facts -/

theorem wrapInt_of_inRange {x : Int} (h1 : INT_MIN ≤ x) (h2 : x ≤ INT_MAX) : wrapInt x = x := by
  unfold wrapInt
  unfold INT_MIN at h1
  unfold INT_MAX at h2
  omega

theorem intDiv_natCast (N T : ℕ) (hT : 1 ≤ T) :
    intDiv (N : ℤ) (T : ℤ) = .ok (((N / T : ℕ)) : ℤ) := by
  unfold intDiv
  have h0 : ¬ ((T : ℤ) = 0) := by omega
  have h1 : ¬ ((N : ℤ) = INT_MIN ∧ (T : ℤ) = -1) := by omega
  rw [if_neg h0, if_neg h1]
  rfl

theorem forRange_zero_natCast (T : ℕ) :
    forRange 0 (T : ℤ) = (List.range T).map fun (t : ℕ) => (t : ℤ) := by
  unfold forRange
  have : ((T : ℤ) - 0).toNat = T := by omega
  rw [this]
  apply List.map_congr_left
  intro k _
  simp

theorem forRange_natCast (s e : ℕ) :
    forRange (s : ℤ) (e : ℤ) = (List.range (e - s)).map fun k => ((s + k : ℕ) : ℤ) := by
  unfold forRange
  have : ((e : ℤ) - (s : ℤ)).toNat = e - s := by omega
  rw [this]
  apply List.map_congr_left
  intro k _
  push_cast
  rfl

theorem foldl_add_range (g : ℕ → ℝ) (k : ℕ) :
    ((List.range k).map g).foldl (fun total x => total + x) 0 = ∑ j in Finset.range k, g j := by
  induction k with
  | zero => simp
  | succ k ih =>
    rw [List.range_succ, List.map_append, List.foldl_append, ih, Finset.sum_range_succ]
    simp

theorem localSum_natCast (self : Integral) (h : ℝ) (s e : ℕ) :
    self.localSum h (s : ℤ) (e : ℤ) = ∑ i in Finset.Ico s e, self.term h (i : ℤ) := by
  unfold Integral.localSum
  rw [forRange_natCast, Finset.sum_Ico_eq_sum_range, ← foldl_add_range]
  rw [List.foldl_map, List.foldl_map]

theorem mul_div_le_of_le {N T t : ℕ} (ht : t ≤ T) : t * (N / T) ≤ N :=
  le_trans (Nat.mul_le_mul_right (N / T) ht) (Nat.mul_div_le N T)

theorem start_natCast (N T t : ℕ) (ht : t < T) (hN : (N : ℤ) ≤ INT_MAX) :
    Integral.start ((N / T : ℕ) : ℤ) (t : ℤ) = ((natStart N T t : ℕ) : ℤ) := by
  unfold Integral.start natStart
  have h1 : t * (N / T) ≤ N := mul_div_le_of_le ht.le
  rw [← Nat.cast_mul]
  unfold INT_MAX at hN
  apply wrapInt_of_inRange
  · unfold INT_MIN; omega
  · unfold INT_MAX; omega

theorem stop_natCast (a b : ℤ) (N T t : ℕ) (ht : t < T) (hN : (N : ℤ) ≤ INT_MAX)
    (hT : (T : ℤ) ≤ INT_MAX) :
    (Integral.mk a b N T).stop ((N / T : ℕ) : ℤ) (t : ℤ) = ((natStop N T t : ℕ) : ℤ) := by
  unfold Integral.stop natStop
  have hw : wrapInt ((T : ℤ) - 1) = (T : ℤ) - 1 := by
    apply wrapInt_of_inRange
    · unfold INT_MIN; omega
    · omega
  simp only [hw]
  by_cases hlast : t = T - 1
  · have : (t : ℤ) = (T : ℤ) - 1 := by omega
    rw [if_pos this, if_pos hlast]
  · have : ¬ ((t : ℤ) = (T : ℤ) - 1) := by omega
    rw [if_neg this, if_neg hlast]
    have h1 : (t + 1) * (N / T) ≤ N := mul_div_le_of_le (by omega)
    have hw1 : wrapInt ((t : ℤ) + 1) = (t : ℤ) + 1 := by
      apply wrapInt_of_inRange
      · unfold INT_MIN; omega
      · omega
    have hc : ((t : ℤ) + 1) * ((N / T : ℕ) : ℤ) = (((t + 1) * (N / T) : ℕ) : ℤ) := by
      push_cast; rfl
    rw [hw1, hc]
    unfold INT_MAX at hN
    apply wrapInt_of_inRange
    · unfold INT_MIN; omega
    · unfold INT_MAX; omega

theorem threadRanges_natCast (a b : ℤ) (N T : ℕ) (hT1 : 1 ≤ T) (hN : (N : ℤ) ≤ INT_MAX)
    (hT : (T : ℤ) ≤ INT_MAX) :
    (Integral.mk a b N T).threadRanges
      = .ok ((List.range T).map fun (t : ℕ) =>
          (((natStart N T t : ℕ) : ℤ), ((natStop N T t : ℕ) : ℤ))) := by
  unfold Integral.threadRanges
  show (match intDiv (N : ℤ) (T : ℤ) with
    | .error e => Except.error e
    | .ok n_per_thread => Except.ok ((forRange 0 (T : ℤ)).map fun t =>
        (Integral.start n_per_thread t, (Integral.mk a b N T).stop n_per_thread t))) = _
  rw [intDiv_natCast N T hT1, forRange_zero_natCast]
  show Except.ok _ = Except.ok _
  rw [List.map_map]
  apply congrArg Except.ok
  apply List.map_congr_left
  intro t ht
  have ht' : t < T := List.mem_range.mp ht
  simp only [Function.comp, start_natCast N T t ht' hN, stop_natCast a b N T t ht' hN hT]

theorem sum_blocks (g : ℕ → ℝ) (q m : ℕ) :
    ∑ t in Finset.range m, ∑ i in Finset.Ico (t * q) ((t + 1) * q), g i
      = ∑ i in Finset.Ico 0 (m * q), g i := by
  induction m with
  | zero => simp
  | succ m ih =>
    rw [Finset.sum_range_succ, ih, Finset.sum_Ico_consecutive]
    · exact Nat.zero_le _
    · exact Nat.mul_le_mul_right q (Nat.le_succ m)

theorem sum_partition (g : ℕ → ℝ) (N T : ℕ) (hT1 : 1 ≤ T) :
    ∑ t in Finset.range T, ∑ i in Finset.Ico (natStart N T t) (natStop N T t), g i
      = ∑ i in Finset.range N, g i := by
  obtain ⟨m, rfl⟩ : ∃ m, T = m + 1 := ⟨T - 1, by omega⟩
  rw [Finset.sum_range_succ]
  have hfirst : ∑ t in Finset.range m,
      ∑ i in Finset.Ico (natStart N (m + 1) t) (natStop N (m + 1) t), g i
      = ∑ t in Finset.range m,
          ∑ i in Finset.Ico (t * (N / (m + 1))) ((t + 1) * (N / (m + 1))), g i := by
    apply Finset.sum_congr rfl
    intro t ht
    have : t ≠ m + 1 - 1 := by
      have := Finset.mem_range.mp ht
      omega
    simp only [natStart, natStop, if_neg this]
  have hlast : natStop N (m + 1) m = N := by simp [natStop]
  rw [hfirst, sum_blocks, hlast, Finset.range_eq_Ico]
  exact Finset.sum_Ico_consecutive g (Nat.zero_le _) (mul_div_le_of_le (Nat.le_succ m))

theorem calculateIntegral_natCast (a b : ℤ) (N T : ℕ) (hT1 : 1 ≤ T) (hN : (N : ℤ) ≤ INT_MAX)
    (hT : (T : ℤ) ≤ INT_MAX) :
    (Integral.mk a b N T).calculateIntegral
      = .ok (∑ i in Finset.range N,
          (Integral.mk a b N T).term (Integral.mk a b N T).h (i : ℤ)) := by
  unfold Integral.calculateIntegral
  simp only [threadRanges_natCast a b N T hT1 hN hT, List.map_map]
  congr 1
  rw [← sum_partition _ N T hT1, ← foldl_add_range]
  congr 1
  apply List.map_congr_left
  intro t _
  simp only [Function.comp, localSum_natCast]


theorem term_natCast (a b : ℤ) (N T i : ℕ) (hi : i < N) (hN : (N : ℤ) ≤ INT_MAX) (h : ℝ) :
    (Integral.mk a b N T).term h (i : ℤ)
      = (Integral.integralFunction ((a : ℝ) + (i : ℝ) * h)
          + Integral.integralFunction ((a : ℝ) + ((i : ℝ) + 1) * h)) * h / 2 := by
  have hw : wrapInt ((i : ℤ) + 1) = (i : ℤ) + 1 := by
    unfold INT_MAX at hN
    apply wrapInt_of_inRange
    · unfold INT_MIN; omega
    · unfold INT_MAX; omega
  unfold Integral.term Integral.x_i Integral.x_next
  rw [hw]
  push_cast
  rfl

theorem integralFunction_pos (x : ℝ) : 0 < Integral.integralFunction x := by
  unfold Integral.integralFunction
  exact Real.sqrt_pos.mpr (by positivity)

theorem term_neg (self : Integral) (h : ℝ) (i : ℤ) (hh : h < 0) : self.term h i < 0 := by
  unfold Integral.term
  have h1 := integralFunction_pos (self.x_i h i)
  have h2 := integralFunction_pos (self.x_next h i)
  exact div_neg_of_neg_of_pos (mul_neg_of_pos_of_neg (add_pos h1 h2) hh) (by norm_num)

/-! ## C1 -/

/-- C1 (as stated, refuted): at `a = -2147483648`, `b = 1`, `n = 1`, `tn = 1` the
subtraction `b - a` overflows, and the value returned is not the composite
trapezoidal sum with `h = (b - a) / n`. -/
theorem calculateIntegral_ne_trapezoidalSum_of_overflow :
    (Integral.mk (-2147483648) 1 1 1).calculateIntegral
      ≠ .ok (trapezoidalSum (-2147483648) 1 1) := by
  intro hEq
  have hc := calculateIntegral_natCast (-2147483648) 1 1 1 (le_refl 1)
    (by unfold INT_MAX; norm_num) (by unfold INT_MAX; norm_num)
  simp only [Nat.cast_one] at hc
  rw [hc] at hEq
  have hv := Except.ok.inj hEq
  have hh : (Integral.mk (-2147483648) 1 1 1).h = -2147483647 := by
    unfold Integral.h
    have : wrapInt (1 - (-2147483648)) = -2147483647 := by decide
    simp only [this]
    norm_num
  rw [hh] at hv
  unfold trapezoidalSum at hv
  simp only [Finset.sum_range_one] at hv
  have hneg : (Integral.mk (-2147483648) 1 1 1).term (-2147483647) ((0 : ℕ) : ℤ) < 0 := by
    unfold Integral.term
    have h1 := integralFunction_pos ((Integral.mk (-2147483648) 1 1 1).x_i (-2147483647) ((0 : ℕ) : ℤ))
    have h2 := integralFunction_pos ((Integral.mk (-2147483648) 1 1 1).x_next (-2147483647) ((0 : ℕ) : ℤ))
    have h3 := mul_neg_of_pos_of_neg (add_pos h1 h2) (by norm_num : (-2147483647 : ℝ) < 0)
    exact div_neg_of_neg_of_pos h3 (by norm_num)
  rw [hv] at hneg
  have h3 := integralFunction_pos (((-2147483648 : ℤ) : ℝ) + ((0 : ℕ) : ℝ) * ((((1 : ℤ) : ℝ) - ((-2147483648 : ℤ) : ℝ)) / ((1 : ℕ) : ℝ)))
  have h4 := integralFunction_pos (((-2147483648 : ℤ) : ℝ) + (((0 : ℕ) : ℝ) + 1) * ((((1 : ℤ) : ℝ) - ((-2147483648 : ℤ) : ℝ)) / ((1 : ℕ) : ℝ)))
  have hpos : (0 : ℝ) < (((1 : ℤ) : ℝ) - ((-2147483648 : ℤ) : ℝ)) / ((1 : ℕ) : ℝ) := by norm_num
  have : 0 < (Integral.integralFunction (((-2147483648 : ℤ) : ℝ) + ((0 : ℕ) : ℝ) * ((((1 : ℤ) : ℝ) - ((-2147483648 : ℤ) : ℝ)) / ((1 : ℕ) : ℝ)))
      + Integral.integralFunction (((-2147483648 : ℤ) : ℝ) + (((0 : ℕ) : ℝ) + 1) * ((((1 : ℤ) : ℝ) - ((-2147483648 : ℤ) : ℝ)) / ((1 : ℕ) : ℝ))))
      * ((((1 : ℤ) : ℝ) - ((-2147483648 : ℤ) : ℝ)) / ((1 : ℕ) : ℝ)) / 2 := by
    positivity
  linarith

theorem calculateIntegral_natCast_eq_trapezoidalSum (a b : ℤ) (N T : ℕ) (hT1 : 1 ≤ T)
    (hN : (N : ℤ) ≤ INT_MAX) (hT : (T : ℤ) ≤ INT_MAX)
    (hlo : INT_MIN ≤ b - a) (hhi : b - a ≤ INT_MAX) :
    (Integral.mk a b N T).calculateIntegral = .ok (trapezoidalSum a b N) := by
  rw [calculateIntegral_natCast a b N T hT1 hN hT]
  apply congrArg Except.ok
  unfold trapezoidalSum
  apply Finset.sum_congr rfl
  intro i hi
  rw [term_natCast a b N T i (Finset.mem_range.mp hi) hN]
  unfold Integral.h
  rw [wrapInt_of_inRange hlo hhi]
  push_cast
  rfl

/-- C1 (amended): for `int` values `n >= 1` and `tn >= 1` and all `a`, `b` whose
difference `b - a` is representable as an `int`, `calculateIntegral` returns
exactly the composite trapezoidal sum with `h = (b - a) / n`. -/
theorem calculateIntegral_eq_trapezoidalSum (a b n tn : ℤ)
    (hn : 1 ≤ n) (hn_max : n ≤ INT_MAX) (htn : 1 ≤ tn) (htn_max : tn ≤ INT_MAX)
    (hlo : INT_MIN ≤ b - a) (hhi : b - a ≤ INT_MAX) :
    (Integral.mk a b n tn).calculateIntegral = .ok (trapezoidalSum a b n.toNat) := by
  obtain ⟨N, rfl⟩ := Int.eq_ofNat_of_zero_le (le_trans zero_le_one hn)
  obtain ⟨T, rfl⟩ := Int.eq_ofNat_of_zero_le (le_trans zero_le_one htn)
  rw [Int.toNat_natCast]
  exact calculateIntegral_natCast_eq_trapezoidalSum a b N T (by omega) hn_max htn_max hlo hhi

/-- Witness for C1 (amended): the scenario `a = 0`, `b = 1`, `n = 1000`, `tn = 4`. -/
theorem calculateIntegral_eq_trapezoidalSum_witness :
    (Integral.mk 0 1 1000 4).calculateIntegral = .ok (trapezoidalSum 0 1 1000) :=
  calculateIntegral_eq_trapezoidalSum 0 1 1000 4 (by decide) (by decide) (by decide) (by decide)
    (by decide) (by decide)

/-! ## C2 -/

theorem natStop_le (N T t : ℕ) (ht : t < T) : natStop N T t ≤ N := by
  unfold natStop
  split
  · exact le_refl N
  · exact mul_div_le_of_le (by omega)

theorem natRange_unique (N T t₁ t₂ i : ℕ) (h₁₂ : t₁ < t₂) (h₂ : t₂ < T)
    (hi₁ : i < natStop N T t₁) (hi₂ : natStart N T t₂ ≤ i) : False := by
  unfold natStop at hi₁
  unfold natStart at hi₂
  have hne : t₁ ≠ T - 1 := by omega
  rw [if_neg hne] at hi₁
  have h : (t₁ + 1) * (N / T) ≤ t₂ * (N / T) :=
    Nat.mul_le_mul_right (N / T) (Nat.succ_le_of_lt h₁₂)
  omega

theorem natRange_exists (N T i : ℕ) (hT : 1 ≤ T) (hi : i < N) :
    ∃ t, t < T ∧ natStart N T t ≤ i ∧ i < natStop N T t := by
  by_cases hlt : i < (T - 1) * (N / T)
  · have hq : 0 < N / T := by
      rcases Nat.eq_zero_or_pos (N / T) with h0 | h0
      · rw [h0] at hlt; omega
      · exact h0
    have ht : i / (N / T) < T - 1 := by
      apply Nat.div_lt_of_lt_mul
      rw [Nat.mul_comm]
      exact hlt
    refine ⟨i / (N / T), by omega, ?_, ?_⟩
    · unfold natStart
      exact Nat.div_mul_le_self i (N / T)
    · unfold natStop
      rw [if_neg (by omega)]
      rw [Nat.mul_comm]
      exact Nat.lt_mul_div_succ i hq
  · refine ⟨T - 1, by omega, ?_, ?_⟩
    · unfold natStart
      omega
    · unfold natStop
      rw [if_pos rfl]
      exact hi

theorem threadRanges_getElem? (N T t : ℕ) (r : ℤ × ℤ) :
    ((List.range T).map fun (t : ℕ) =>
        (((natStart N T t : ℕ) : ℤ), ((natStop N T t : ℕ) : ℤ)))[t]? = some r
      ↔ t < T ∧ r = (((natStart N T t : ℕ) : ℤ), ((natStop N T t : ℕ) : ℤ)) := by
  rw [List.getElem?_map]
  by_cases ht : t < T
  · rw [List.getElem?_range ht]
    simp [ht, eq_comm]
  · rw [List.getElem?_eq_none (by simpa using ht)]
    simp [ht]

/-- C2: for `int` values `n >= 1` and `tn >= 1` the ranges `[start_t, end_t)` computed
for the workers `t = 0 .. tn-1` partition `[0, n)`: each index `0 <= i < n` lies in
the range of exactly one worker, and no range holds an index outside `[0, n)`. -/
theorem threadRanges_partition (a b n tn : ℤ)
    (hn : 1 ≤ n) (hn_max : n ≤ INT_MAX) (htn : 1 ≤ tn) (htn_max : tn ≤ INT_MAX) :
    ∃ ranges, (Integral.mk a b n tn).threadRanges = .ok ranges
      ∧ (ranges.length : ℤ) = tn
      ∧ (∀ i : ℤ, 0 ≤ i → i < n →
          ∃! t : ℕ, ∃ r, ranges[t]? = some r ∧ r.1 ≤ i ∧ i < r.2)
      ∧ (∀ (t : ℕ) (r : ℤ × ℤ), ranges[t]? = some r →
          ∀ i : ℤ, r.1 ≤ i → i < r.2 → 0 ≤ i ∧ i < n) := by
  obtain ⟨N, rfl⟩ := Int.eq_ofNat_of_zero_le (le_trans zero_le_one hn)
  obtain ⟨T, rfl⟩ := Int.eq_ofNat_of_zero_le (le_trans zero_le_one htn)
  have hT : 1 ≤ T := by omega
  refine ⟨_, threadRanges_natCast a b N T hT hn_max htn_max, by simp, ?_, ?_⟩
  · intro i hi0 hiN
    obtain ⟨k, rfl⟩ := Int.eq_ofNat_of_zero_le hi0
    have hk : k < N := by omega
    obtain ⟨t, ht, hs, he⟩ := natRange_exists N T k hT hk
    refine ⟨t, ⟨_, (threadRanges_getElem? N T t _).mpr ⟨ht, rfl⟩, ?_, ?_⟩, ?_⟩
    · show ((natStart N T t : ℕ) : ℤ) ≤ (k : ℤ)
      exact_mod_cast hs
    · show (k : ℤ) < ((natStop N T t : ℕ) : ℤ)
      exact_mod_cast he
    · rintro t' ⟨r, hr, hs', he'⟩
      obtain ⟨ht', rfl⟩ := (threadRanges_getElem? N T t' r).mp hr
      have hs'' : natStart N T t' ≤ k := by
        have : ((natStart N T t' : ℕ) : ℤ) ≤ (k : ℤ) := hs'
        exact_mod_cast this
      have he'' : k < natStop N T t' := by
        have : (k : ℤ) < ((natStop N T t' : ℕ) : ℤ) := he'
        exact_mod_cast this
      rcases Nat.lt_trichotomy t' t with hlt | heq | hgt
      · exact (natRange_unique N T t' t k hlt ht he'' hs).elim
      · exact heq
      · exact (natRange_unique N T t t' k hgt ht' he hs'').elim
  · intro t r hr i hs he
    obtain ⟨ht, rfl⟩ := (threadRanges_getElem? N T t r).mp hr
    have h1 := natStop_le N T t ht
    have h2 : (0 : ℤ) ≤ ((natStart N T t : ℕ) : ℤ) := Int.natCast_nonneg _
    have h3 : ((natStop N T t : ℕ) : ℤ) ≤ (N : ℤ) := by exact_mod_cast h1
    have hs' : ((natStart N T t : ℕ) : ℤ) ≤ i := hs
    have he' : i < ((natStop N T t : ℕ) : ℤ) := he
    constructor <;> linarith

/-- Witness for C2: `n = 10`, `tn = 4`, where `tn` does not divide `n`. -/
theorem threadRanges_partition_witness :
    ∃ ranges, (Integral.mk 0 1 10 4).threadRanges = .ok ranges
      ∧ (ranges.length : ℤ) = 4
      ∧ (∀ i : ℤ, 0 ≤ i → i < 10 →
          ∃! t : ℕ, ∃ r, ranges[t]? = some r ∧ r.1 ≤ i ∧ i < r.2)
      ∧ (∀ (t : ℕ) (r : ℤ × ℤ), ranges[t]? = some r →
          ∀ i : ℤ, r.1 ≤ i → i < r.2 → 0 ≤ i ∧ i < 10) :=
  threadRanges_partition 0 1 10 4 (by decide) (by decide) (by decide) (by decide)

/-! ## C3 -/

/-- C3: for fixed `a`, `b` and an `int` value `n >= 1`, any two worker counts
`tn1, tn2 >= 1` that divide `n` make `calculateIntegral` return the same value
(doubles as exact reals). -/
theorem calculateIntegral_worker_count_invariant (a b n tn1 tn2 : ℤ)
    (hn : 1 ≤ n) (hn_max : n ≤ INT_MAX) (h1 : 1 ≤ tn1) (h2 : 1 ≤ tn2)
    (hd1 : tn1 ∣ n) (hd2 : tn2 ∣ n) :
    ∃ v, (Integral.mk a b n tn1).calculateIntegral = .ok v
      ∧ (Integral.mk a b n tn2).calculateIntegral = .ok v := by
  have hm1 : tn1 ≤ INT_MAX := le_trans (Int.le_of_dvd (by omega) hd1) hn_max
  have hm2 : tn2 ≤ INT_MAX := le_trans (Int.le_of_dvd (by omega) hd2) hn_max
  obtain ⟨N, rfl⟩ := Int.eq_ofNat_of_zero_le (le_trans zero_le_one hn)
  obtain ⟨T1, rfl⟩ := Int.eq_ofNat_of_zero_le (le_trans zero_le_one h1)
  obtain ⟨T2, rfl⟩ := Int.eq_ofNat_of_zero_le (le_trans zero_le_one h2)
  refine ⟨_, calculateIntegral_natCast a b N T1 (by omega) hn_max hm1, ?_⟩
  rw [calculateIntegral_natCast a b N T2 (by omega) hn_max hm2]
  rfl

/-- Witness for C3: `a = 0`, `b = 1`, `n = 1000`, with `tn = 1` against `tn = 4`. -/
theorem calculateIntegral_worker_count_invariant_witness :
    ∃ v, (Integral.mk 0 1 1000 1).calculateIntegral = .ok v
      ∧ (Integral.mk 0 1 1000 4).calculateIntegral = .ok v :=
  calculateIntegral_worker_count_invariant 0 1 1000 1 4 (by decide) (by decide) (by decide)
    (by decide) (by decide) (by decide)

/-! ## C4 -/

theorem forRange_length (start stop : ℤ) : (forRange start stop).length = (stop - start).toNat := by
  unfold forRange
  simp

theorem natCount_inner (N T t : ℕ) (ht : t < T - 1) :
    natStop N T t - natStart N T t = N / T := by
  unfold natStop natStart
  rw [if_neg (by omega), Nat.succ_mul]
  exact Nat.add_sub_cancel_left _ _

theorem natCount_last (N T : ℕ) (hT : 1 ≤ T) :
    natStop N T (T - 1) - natStart N T (T - 1) = N / T + N % T := by
  unfold natStop natStart
  rw [if_pos rfl]
  have h1 : T * (N / T) + N % T = N := Nat.div_add_mod N T
  have h2 : (T - 1) * (N / T) + N / T = T * (N / T) := by
    obtain ⟨m, rfl⟩ : ∃ m, T = m + 1 := ⟨T - 1, by omega⟩
    rw [Nat.add_sub_cancel, Nat.succ_mul]
  generalize N / T = q at h1 h2 ⊢
  generalize N % T = r at h1 ⊢
  omega

/-- C4: for `int` values `n >= 1` and `tn >= 1`, every worker `t < tn-1` is assigned
exactly the `floor(n/tn)` indices `[t*floor(n/tn), (t+1)*floor(n/tn))`, and the last
worker exactly `floor(n/tn) + (n mod tn)` indices ending at `n`; when `tn` divides
`n` every worker gets `n/tn` indices, and when `tn > n` the first `tn-1` workers get
none and the last gets all `n`. -/
theorem threadRanges_last_absorbs_remainder (a b n tn : ℤ)
    (hn : 1 ≤ n) (hn_max : n ≤ INT_MAX) (htn : 1 ≤ tn) (htn_max : tn ≤ INT_MAX) :
    ∃ ranges, (Integral.mk a b n tn).threadRanges = .ok ranges
      ∧ (ranges.length : ℤ) = tn
      ∧ ∀ t : ℕ, (t : ℤ) < tn → ∃ r, ranges[t]? = some r
          ∧ ((t : ℤ) < tn - 1 →
              r = ((t : ℤ) * (n / tn), ((t : ℤ) + 1) * (n / tn))
                ∧ ((forRange r.1 r.2).length : ℤ) = n / tn)
          ∧ ((t : ℤ) = tn - 1 →
              r.2 = n ∧ ((forRange r.1 r.2).length : ℤ) = n / tn + n % tn)
          ∧ (tn ∣ n → ((forRange r.1 r.2).length : ℤ) = n / tn)
          ∧ (n < tn →
              ((t : ℤ) < tn - 1 → (forRange r.1 r.2).length = 0)
                ∧ ((t : ℤ) = tn - 1 → ((forRange r.1 r.2).length : ℤ) = n)) := by
  obtain ⟨N, rfl⟩ := Int.eq_ofNat_of_zero_le (le_trans zero_le_one hn)
  obtain ⟨T, rfl⟩ := Int.eq_ofNat_of_zero_le (le_trans zero_le_one htn)
  have hT : 1 ≤ T := by omega
  refine ⟨_, threadRanges_natCast a b N T hT hn_max htn_max, by simp, ?_⟩
  intro t ht
  have ht' : t < T := by omega
  refine ⟨_, (threadRanges_getElem? N T t _).mpr ⟨ht', rfl⟩, ?_⟩
  have hlen : (forRange ((natStart N T t : ℕ) : ℤ) ((natStop N T t : ℕ) : ℤ)).length
      = natStop N T t - natStart N T t := by
    rw [forRange_length]; omega
  have hdiv : ((N / T : ℕ) : ℤ) = (N : ℤ) / (T : ℤ) := Int.natCast_div N T
  have hmod : ((N % T : ℕ) : ℤ) = (N : ℤ) % (T : ℤ) := Int.natCast_mod N T
  have hinner : t < T - 1 → natStop N T t - natStart N T t = N / T := natCount_inner N T t
  have hlast : t = T - 1 → natStop N T t - natStart N T t = N / T + N % T := by
    intro h; rw [h]; exact natCount_last N T hT
  simp only [hlen]
  refine ⟨?_, ?_, ?_, ?_⟩
  · intro h
    have h' : t < T - 1 := by omega
    refine ⟨?_, ?_⟩
    · unfold natStart natStop
      rw [if_neg (by omega), ← hdiv]
      push_cast
      rfl
    · rw [hinner h', hdiv]
  · intro h
    have h' : t = T - 1 := by omega
    refine ⟨?_, ?_⟩
    · show ((natStop N T t : ℕ) : ℤ) = (N : ℤ)
      unfold natStop
      rw [if_pos h']
    · rw [hlast h', ← hdiv, ← hmod]
      push_cast
      rfl
  · intro hd
    have hd' : T ∣ N := Int.natCast_dvd_natCast.mp hd
    have hm0 : N % T = 0 := Nat.mod_eq_zero_of_dvd hd'
    rw [← hdiv]
    by_cases h' : t < T - 1
    · rw [hinner h']
    · rw [hlast (by omega), hm0, Nat.add_zero]
  · intro hlt
    have hlt' : N < T := by omega
    have hq : N / T = 0 := Nat.div_eq_of_lt hlt'
    have hm : N % T = N := Nat.mod_eq_of_lt hlt'
    refine ⟨?_, ?_⟩
    · intro h
      rw [hinner (by omega), hq]
    · intro h
      rw [hlast (by omega), hq, hm, Nat.zero_add]

/-- Witness for C4: `n = 10`, `tn = 4`: three workers with 2 indices, the last with 4. -/
theorem threadRanges_last_absorbs_remainder_witness :
    ∃ ranges, (Integral.mk 0 1 10 4).threadRanges = .ok ranges
      ∧ (ranges.length : ℤ) = 4
      ∧ ∀ t : ℕ, (t : ℤ) < 4 → ∃ r, ranges[t]? = some r
          ∧ ((t : ℤ) < 4 - 1 →
              r = ((t : ℤ) * (10 / 4), ((t : ℤ) + 1) * (10 / 4))
                ∧ ((forRange r.1 r.2).length : ℤ) = 10 / 4)
          ∧ ((t : ℤ) = 4 - 1 →
              r.2 = 10 ∧ ((forRange r.1 r.2).length : ℤ) = 10 / 4 + 10 % 4)
          ∧ ((4 : ℤ) ∣ 10 → ((forRange r.1 r.2).length : ℤ) = 10 / 4)
          ∧ ((10 : ℤ) < 4 →
              ((t : ℤ) < 4 - 1 → (forRange r.1 r.2).length = 0)
                ∧ ((t : ℤ) = 4 - 1 → ((forRange r.1 r.2).length : ℤ) = 10)) :=
  threadRanges_last_absorbs_remainder 0 1 10 4 (by decide) (by decide) (by decide) (by decide)

/-! ## C5 -/

theorem intDiv_of_pos (x y : ℤ) (hy : 1 ≤ y) : intDiv x y = .ok (Int.tdiv x y) := by
  unfold intDiv
  rw [if_neg (by omega), if_neg (by omega)]

theorem foldl_add_eq_zero {α : Type} (g : α → ℝ) (l : List α) (hg : ∀ x ∈ l, g x = 0) :
    l.foldl (fun acc x => acc + g x) 0 = 0 := by
  induction l using List.reverseRecOn with
  | nil => rfl
  | append_singleton l x ih =>
    rw [List.foldl_append, ih (fun y hy => hg y (List.mem_append_left _ hy))]
    simp [hg x (by simp)]

/-- In exact real arithmetic, with `b = a`, every `n >= 1` and every `tn >= 1`, the
step `h` is 0, every trapezoid term is 0 and the total is 0, for every `a`. -/
theorem calculateIntegral_zero_width (a n tn : ℤ) (hn : 1 ≤ n) (htn : 1 ≤ tn) :
    (Integral.mk a a n tn).h = 0
      ∧ (∀ i : ℤ, (Integral.mk a a n tn).term (Integral.mk a a n tn).h i = 0)
      ∧ (Integral.mk a a n tn).calculateIntegral = .ok 0 := by
  have hh : (Integral.mk a a n tn).h = 0 := by
    unfold Integral.h
    have : wrapInt (a - a) = 0 := by rw [sub_self]; rfl
    simp only [this]
    simp
  have hterm : ∀ i : ℤ, (Integral.mk a a n tn).term 0 i = 0 := by
    intro i
    unfold Integral.term
    simp
  refine ⟨hh, ?_, ?_⟩
  · intro i
    rw [hh]
    exact hterm i
  · unfold Integral.calculateIntegral Integral.threadRanges
    show (match (match intDiv n tn with
      | .error e => Except.error e
      | .ok n_per_thread => Except.ok ((forRange 0 tn).map fun t =>
          (Integral.start n_per_thread t, (Integral.mk a a n tn).stop n_per_thread t))) with
      | .error e => Except.error e
      | .ok ranges => Except.ok ((ranges.map fun (r : ℤ × ℤ) =>
          (Integral.mk a a n tn).localSum (Integral.mk a a n tn).h r.1 r.2).foldl
            (fun total local_sum => total + local_sum) 0)) = _
    rw [intDiv_of_pos n tn htn, hh]
    show Except.ok _ = Except.ok _
    apply congrArg Except.ok
    rw [List.foldl_map]
    apply foldl_add_eq_zero
    intro r _
    unfold Integral.localSum
    exact foldl_add_eq_zero _ _ (fun i _ => hterm i)

/-- An instance in exact real arithmetic: `a = b = 7`, `n = 10`, `tn = 3`. -/
theorem calculateIntegral_zero_width_witness :
    (Integral.mk 7 7 10 3).h = 0
      ∧ (∀ i : ℤ, (Integral.mk 7 7 10 3).term (Integral.mk 7 7 10 3).h i = 0)
      ∧ (Integral.mk 7 7 10 3).calculateIntegral = .ok 0 :=
  calculateIntegral_zero_width 7 10 3 (by decide) (by decide)

/-! ### C5 on doubles with overflow -/

theorem DBL_MAX_ge : (2 : ℝ) ^ 1023 ≤ DBL_MAX := by
  unfold DBL_MAX
  norm_num

theorem DBL_MAX_lt : DBL_MAX < (2 : ℝ) ^ 1024 := by
  unfold DBL_MAX
  norm_num

theorem two_pow_eq_exp (k : ℕ) : (2 : ℝ) ^ k = Real.exp ((k : ℝ) * Real.log 2) := by
  rw [Real.exp_nat_mul, Real.exp_log (by norm_num)]

theorem exp_710_gt_DBL_MAX : DBL_MAX < Real.exp 710 := by
  have h1 : ((1024 : ℕ) : ℝ) * Real.log 2 < 710 := by
    have := Real.log_two_lt_d9
    norm_num
    linarith
  have h2 : (2 : ℝ) ^ 1024 < Real.exp 710 := by
    rw [two_pow_eq_exp 1024]
    exact Real.exp_lt_exp.mpr h1
  exact lt_trans DBL_MAX_lt h2

theorem exp_le_two_pow_of_le_709 (x : ℝ) (hx : x ≤ 709) : Real.exp x ≤ (2 : ℝ) ^ 1023 := by
  have h1 : (709 : ℝ) ≤ ((1023 : ℕ) : ℝ) * Real.log 2 := by
    have := Real.log_two_gt_d9
    norm_num
    linarith
  rw [two_pow_eq_exp 1023]
  exact Real.exp_le_exp.mpr (le_trans hx h1)

theorem ofReal_of_le {r : ℝ} (h1 : -DBL_MAX ≤ r) (h2 : r ≤ DBL_MAX) :
    Double.ofReal r = .finite r := by
  unfold Double.ofReal
  rw [if_neg (not_lt.mpr h2), if_neg (not_lt.mpr h1)]

theorem ofReal_zero : Double.ofReal 0 = .finite 0 := by
  have := DBL_MAX_ge
  have h2 : (0 : ℝ) < 2 ^ 1023 := by positivity
  exact ofReal_of_le (by linarith) (by linarith)

theorem ofReal_of_gt {r : ℝ} (h : DBL_MAX < r) : Double.ofReal r = .posInf := by
  unfold Double.ofReal
  rw [if_pos h]

theorem Double.exp_finite (x : ℝ) : Double.exp (.finite x) = Double.ofReal (Real.exp x) := rfl

theorem Double.add_finite (x y : ℝ) :
    Double.add (.finite x) (.finite y) = Double.ofReal (x + y) := rfl

theorem Double.mul_finite (x y : ℝ) :
    Double.mul (.finite x) (.finite y) = Double.ofReal (x * y) := rfl

theorem Double.div_finite (x y : ℝ) (hy : y ≠ 0) :
    Double.div (.finite x) (.finite y) = Double.ofReal (x / y) := by
  show (if y = 0 then (if x = 0 then Double.nan else if 0 < x then Double.posInf else Double.negInf)
    else Double.ofReal (x / y)) = _
  rw [if_neg hy]

theorem Double.sqrt_finite (x : ℝ) (hx : 0 ≤ x) :
    Double.sqrt (.finite x) = .finite (Real.sqrt x) := by
  show (if x < 0 then Double.nan else Double.finite (Real.sqrt x)) = _
  rw [if_neg (not_lt.mpr hx)]

theorem Fp.integralFunction_overflow (x : ℝ) (hx : DBL_MAX < Real.exp x) :
    Fp.integralFunction (.finite x) = .posInf := by
  unfold Fp.integralFunction
  rw [Double.exp_finite, ofReal_of_gt hx]
  rfl

theorem Fp.integralFunction_finite (x : ℝ) (hx : x ≤ 709) :
    Fp.integralFunction (.finite x) = .finite (Real.sqrt (1 + Real.exp x))
      ∧ Real.sqrt (1 + Real.exp x) ≤ (2 : ℝ) ^ 512 := by
  have he := exp_le_two_pow_of_le_709 x hx
  have hpos := Real.exp_pos x
  have hmax := DBL_MAX_ge
  have hbig : (1 : ℝ) ≤ 2 ^ 1023 := one_le_pow₀ (by norm_num)
  have h1 : Double.ofReal (Real.exp x) = .finite (Real.exp x) :=
    ofReal_of_le (by linarith) (by linarith)
  have h2 : Double.ofReal (1 + Real.exp x) = .finite (1 + Real.exp x) := by
    apply ofReal_of_le (by linarith)
    unfold DBL_MAX
    have : (1 : ℝ) + 2 ^ 1023 ≤ 2 ^ 1024 - 2 ^ 971 := by norm_num
    linarith
  refine ⟨?_, ?_⟩
  · unfold Fp.integralFunction Double.ofInt
    rw [Double.exp_finite, h1, Double.add_finite, Int.cast_one, h2,
      Double.sqrt_finite _ (by linarith)]
  · have h4 : 1 + Real.exp x ≤ ((2 : ℝ) ^ 512) ^ 2 := by
      have : (1 : ℝ) + 2 ^ 1023 ≤ ((2 : ℝ) ^ 512) ^ 2 := by norm_num
      linarith
    calc Real.sqrt (1 + Real.exp x) ≤ Real.sqrt (((2 : ℝ) ^ 512) ^ 2) := Real.sqrt_le_sqrt h4
      _ = (2 : ℝ) ^ 512 := Real.sqrt_sq (by positivity)

theorem Fp.h_zero_width (a n tn : ℤ) (hn : 1 ≤ n) :
    Fp.h (Integral.mk a a n tn) = .finite 0 := by
  have hw : wrapInt (a - a) = 0 := by rw [sub_self]; rfl
  have hn0 : ((n : ℤ) : ℝ) ≠ 0 := by
    have : (0 : ℝ) < ((n : ℤ) : ℝ) := by exact_mod_cast (by omega : (0 : ℤ) < n)
    exact ne_of_gt this
  show Double.div (.finite ((wrapInt (a - a) : ℤ) : ℝ)) (.finite ((n : ℤ) : ℝ)) = _
  rw [hw, Double.div_finite _ _ hn0, Int.cast_zero, zero_div, ofReal_zero]

theorem Fp.samplePoint_zero_step (a i : ℤ) (hlo : INT_MIN ≤ a) (hhi : a ≤ 710) :
    Double.add (Double.ofInt a) (Double.mul (Double.ofInt i) (.finite 0)) = .finite (a : ℝ) := by
  unfold Double.ofInt
  rw [Double.mul_finite, mul_zero, ofReal_zero, Double.add_finite, add_zero]
  have hmax := DBL_MAX_ge
  have h1 : (-2147483648 : ℝ) ≤ (a : ℝ) := by
    unfold INT_MIN at hlo
    exact_mod_cast hlo
  have h2 : (a : ℝ) ≤ 710 := by exact_mod_cast hhi
  have h3 : (2147483648 : ℝ) ≤ 2 ^ 1023 := by norm_num
  exact ofReal_of_le (by linarith) (by linarith)

theorem Fp.term_zero_step (a n tn i : ℤ) (hlo : INT_MIN ≤ a) (hhi : a ≤ 709) :
    Fp.term (Integral.mk a a n tn) (.finite 0) i = .finite 0 := by
  have hx : (a : ℝ) ≤ 709 := by exact_mod_cast hhi
  obtain ⟨hf, hb⟩ := Fp.integralFunction_finite (a : ℝ) hx
  have hs0 : 0 ≤ Real.sqrt (1 + Real.exp (a : ℝ)) := Real.sqrt_nonneg _
  have hmax := DBL_MAX_ge
  have hsum : Double.ofReal (Real.sqrt (1 + Real.exp (a : ℝ)) + Real.sqrt (1 + Real.exp (a : ℝ)))
      = .finite (Real.sqrt (1 + Real.exp (a : ℝ)) + Real.sqrt (1 + Real.exp (a : ℝ))) := by
    have : (2 : ℝ) ^ 512 + 2 ^ 512 ≤ 2 ^ 1023 := by norm_num
    exact ofReal_of_le (by linarith) (by linarith)
  unfold Fp.term Fp.x_i Fp.x_next
  rw [Fp.samplePoint_zero_step a i hlo (by omega),
    Fp.samplePoint_zero_step a (wrapInt (i + 1)) hlo (by omega), hf,
    Double.add_finite, hsum, Double.mul_finite, mul_zero, ofReal_zero,
    Double.div_finite _ _ (by norm_num), zero_div, ofReal_zero]

theorem Fp.foldl_add_zero {α : Type} (g : α → Double) (l : List α)
    (hg : ∀ x ∈ l, g x = .finite 0) :
    l.foldl (fun acc x => Double.add acc (g x)) (.finite 0) = .finite 0 := by
  induction l using List.reverseRecOn with
  | nil => rfl
  | append_singleton l x ih =>
    rw [List.foldl_append, ih (fun y hy => hg y (List.mem_append_left _ hy))]
    show Double.add (.finite 0) (g x) = _
    rw [hg x (by simp), Double.add_finite, add_zero, ofReal_zero]

/-- C5 (as stated, refuted): at `a = b = 710`, `n = 1`, `tn = 1` the step is `0.0`,
but `std::exp(710)` overflows to infinity, the term `(inf + inf) * 0.0 / 2.0` is a
NaN, and `calculateIntegral` returns NaN, not 0. -/
theorem calculateIntegral_zero_width_nan :
    Fp.h (Integral.mk 710 710 1 1) = .finite 0
      ∧ Fp.term (Integral.mk 710 710 1 1) (.finite 0) 0 = .nan
      ∧ Fp.calculateIntegral (Integral.mk 710 710 1 1) = .ok .nan := by
  have hh : Fp.h (Integral.mk 710 710 1 1) = .finite 0 := Fp.h_zero_width 710 1 1 (le_refl 1)
  have hpoint : ∀ i : ℤ,
      Double.add (Double.ofInt 710) (Double.mul (Double.ofInt i) (.finite 0))
        = .finite ((710 : ℤ) : ℝ) :=
    fun i => Fp.samplePoint_zero_step 710 i (by decide) (by decide)
  have hover : Fp.integralFunction (.finite ((710 : ℤ) : ℝ)) = .posInf :=
    Fp.integralFunction_overflow _ (by rw [Int.cast_ofNat]; exact exp_710_gt_DBL_MAX)
  have hterm : Fp.term (Integral.mk 710 710 1 1) (.finite 0) 0 = .nan := by
    unfold Fp.term Fp.x_i Fp.x_next
    rw [hpoint 0, hpoint (wrapInt (0 + 1)), hover]
    show Double.div (Double.infTimes true 0) (.finite 2) = _
    have hnan : Double.infTimes true 0 = .nan := by
      unfold Double.infTimes
      rw [if_pos rfl]
    rw [hnan]
    rfl
  refine ⟨hh, hterm, ?_⟩
  have hr : (Integral.mk 710 710 1 1).threadRanges = .ok [(0, 1)] := by decide
  have hf : forRange 0 1 = [0] := by decide
  unfold Fp.calculateIntegral
  rw [hr]
  show Except.ok _ = Except.ok _
  apply congrArg Except.ok
  show Double.add (.finite 0) (Fp.localSum (Integral.mk 710 710 1 1) (Fp.h (Integral.mk 710 710 1 1)) 0 1) = _
  unfold Fp.localSum
  rw [hf, hh]
  show Double.add (.finite 0) (Double.add (.finite 0) (Fp.term (Integral.mk 710 710 1 1) (.finite 0) 0)) = _
  rw [hterm]
  rfl

/-- C5 (amended): for every `int` value `a <= 709` (so that `e^a` does not overflow a
`double`), with `b = a`, every `n >= 1` and every `tn >= 1`, the step `h` is 0, every
trapezoid term is 0 and `calculateIntegral` returns exactly 0. -/
theorem calculateIntegral_zero_width_no_overflow (a n tn : ℤ)
    (hlo : INT_MIN ≤ a) (hhi : a ≤ 709) (hn : 1 ≤ n) (htn : 1 ≤ tn) :
    Fp.h (Integral.mk a a n tn) = .finite 0
      ∧ (∀ i : ℤ, Fp.term (Integral.mk a a n tn) (Fp.h (Integral.mk a a n tn)) i = .finite 0)
      ∧ Fp.calculateIntegral (Integral.mk a a n tn) = .ok (.finite 0) := by
  have hh := Fp.h_zero_width a n tn hn
  have hterm : ∀ i : ℤ, Fp.term (Integral.mk a a n tn) (.finite 0) i = .finite 0 :=
    fun i => Fp.term_zero_step a n tn i hlo hhi
  refine ⟨hh, ?_, ?_⟩
  · intro i
    rw [hh]
    exact hterm i
  · unfold Fp.calculateIntegral Integral.threadRanges
    show (match (match intDiv n tn with
      | .error e => Except.error e
      | .ok n_per_thread => Except.ok ((forRange 0 tn).map fun t =>
          (Integral.start n_per_thread t, (Integral.mk a a n tn).stop n_per_thread t))) with
      | .error e => Except.error e
      | .ok ranges => Except.ok ((ranges.map fun (r : ℤ × ℤ) =>
          Fp.localSum (Integral.mk a a n tn) (Fp.h (Integral.mk a a n tn)) r.1 r.2).foldl
            (fun total local_sum => Double.add total local_sum) (Double.finite 0))) = _
    rw [intDiv_of_pos n tn htn, hh]
    show Except.ok _ = Except.ok _
    apply congrArg Except.ok
    rw [List.foldl_map]
    apply Fp.foldl_add_zero
    intro r _
    unfold Fp.localSum
    exact Fp.foldl_add_zero _ _ (fun i _ => hterm i)

/-- Witness for C5 (amended): `a = b = 7`, `n = 10`, `tn = 3`. -/
theorem calculateIntegral_zero_width_no_overflow_witness :
    Fp.h (Integral.mk 7 7 10 3) = .finite 0
      ∧ (∀ i : ℤ, Fp.term (Integral.mk 7 7 10 3) (Fp.h (Integral.mk 7 7 10 3)) i = .finite 0)
      ∧ Fp.calculateIntegral (Integral.mk 7 7 10 3) = .ok (.finite 0) :=
  calculateIntegral_zero_width_no_overflow 7 10 3 (by decide) (by decide) (by decide) (by decide)

/-! ## C6 -/

theorem stoi_error_what (s : String) (e : Exception) (h : stoi s = .error e) :
    e = .invalid_argument "stoi" ∨ e = .out_of_range "stoi" := by
  unfold stoi convert at h
  simp only at h
  split_ifs at h <;> cases h <;> simp

/-- C6: the constructor raises `invalid_argument("Wrong number of arguments")` if and
only if `argc != 5`, and when it does it has handed no token to `std::stoi`. -/
theorem ctor_wrong_number_of_arguments (argv : List String) :
    ((Integral.ctor argv).result = .error (.invalid_argument "Wrong number of arguments")
        ↔ (argv.length : ℤ) ≠ 5)
      ∧ ((Integral.ctor argv).result = .error (.invalid_argument "Wrong number of arguments")
        → (Integral.ctor argv).parsed = []) := by
  have key : (argv.length : ℤ) = 5 →
      (Integral.ctor argv).result ≠ .error (.invalid_argument "Wrong number of arguments") := by
    intro h5 hres
    unfold Integral.ctor at hres
    simp only [ne_eq, h5, not_true_eq_false, if_false] at hres
    split at hres
    · rename_i e he
      rcases stoi_error_what _ e he with rfl | rfl <;> simp at hres
    · split at hres
      · rename_i e he
        rcases stoi_error_what _ e he with rfl | rfl <;> simp at hres
      · split at hres
        · rename_i e he
          rcases stoi_error_what _ e he with rfl | rfl <;> simp at hres
        · split at hres
          · rename_i e he
            rcases stoi_error_what _ e he with rfl | rfl <;> simp at hres
          · simp at hres
  have wrong : (argv.length : ℤ) ≠ 5 →
      Integral.ctor argv = ⟨[], .error (.invalid_argument "Wrong number of arguments")⟩ := by
    intro h
    unfold Integral.ctor
    simp only [ne_eq, h, not_false_eq_true, if_true]
  refine ⟨⟨?_, ?_⟩, ?_⟩
  · intro hres h5
    exact key h5 hres
  · intro h
    rw [wrong h]
  · intro hres
    by_cases h5 : (argv.length : ℤ) = 5
    · exact absurd hres (key h5)
    · rw [wrong h5]

/-! ## C7 -/

theorem isspace_eq_false_of_isdigit {c : Char} (h : isdigit c = true) : isspace c = false := by
  unfold isdigit at h
  unfold isspace
  simp only [Bool.and_eq_true, decide_eq_true_eq] at h
  simp only [Bool.or_eq_false_iff, Bool.and_eq_false_iff, decide_eq_false_iff_not]
  omega

theorem readSign_of_isdigit {c : Char} (l : List Char) (h : isdigit c = true) :
    readSign (c :: l) = (false, c :: l) := by
  have h1 : c ≠ '-' := by rintro rfl; exact absurd h (by decide)
  have h2 : c ≠ '+' := by rintro rfl; exact absurd h (by decide)
  unfold readSign
  split
  · rename_i heq; exact absurd (List.cons.inj heq).1 h1
  · rename_i heq; exact absurd (List.cons.inj heq).1 h2
  · rfl

theorem readSign_spec (l : List Char) :
    ∃ sign, l = sign ++ (readSign l).2
      ∧ (sign = [] ∨ sign = ['+'] ∨ sign = ['-'])
      ∧ ((readSign l).1 = true ↔ sign = ['-']) := by
  unfold readSign
  split
  · exact ⟨['-'], rfl, Or.inr (Or.inr rfl), by simp⟩
  · exact ⟨['+'], rfl, Or.inr (Or.inl rfl), by simp⟩
  · exact ⟨[], rfl, Or.inl rfl, by simp⟩

theorem convert_eq_ok_iff (negative : Bool) (digits : List Char) (v : ℤ) :
    convert negative digits = .ok v
      ↔ digits ≠ []
        ∧ v = (if negative = true then -((decimalValue digits : ℕ) : ℤ)
                else ((decimalValue digits : ℕ) : ℤ))
        ∧ INT_MIN ≤ v ∧ v ≤ INT_MAX := by
  unfold convert
  by_cases hd : digits = []
  · subst hd
    simp
  · have hde : ¬ (digits.isEmpty = true) := by simpa using hd
    rw [if_neg hde]
    simp only
    constructor
    · intro h
      split_ifs at h with hr
      all_goals (cases h; exact ⟨hd, by simp [*], by omega, by omega⟩)
    · rintro ⟨_, rfl, hlo, hhi⟩
      rw [if_neg (by omega)]

theorem stoi_eq_ok_iff (s : String) (v : ℤ) : stoi s = .ok v ↔ LeadingInteger s v := by
  unfold stoi
  simp only
  rw [convert_eq_ok_iff]
  constructor
  · rintro ⟨hne, hv, hlo, hhi⟩
    obtain ⟨sign, hsplit, hsign, hneg⟩ := readSign_spec (s.toList.dropWhile isspace)
    refine ⟨s.toList.takeWhile isspace, sign,
      (readSign (s.toList.dropWhile isspace)).2.takeWhile isdigit,
      (readSign (s.toList.dropWhile isspace)).2.dropWhile isdigit, ?_, ?_, hsign, hne, ?_, ?_, ?_,
      hlo, hhi⟩
    · rw [List.append_assoc, List.append_assoc, List.takeWhile_append_dropWhile, ← hsplit,
        List.takeWhile_append_dropWhile]
    · intro c hc
      exact List.mem_takeWhile_imp hc
    · intro c hc
      exact List.mem_takeWhile_imp hc
    · intro c hc
      have := List.head?_dropWhile_not isdigit (readSign (s.toList.dropWhile isspace)).2
      rw [Option.mem_def.mp hc] at this
      exact this
    · rw [hv]
      by_cases hs : sign = ['-']
      · rw [if_pos hs, if_pos (hneg.mpr hs)]
      · rw [if_neg hs, if_neg (fun h => hs (hneg.mp h))]
  · rintro ⟨ws, sign, digits, rest, hsplit, hws, hsign, hne, hdig, hrest, hv, hlo, hhi⟩
    obtain ⟨d, ds, rfl⟩ := List.exists_cons_of_ne_nil hne
    have hd : isdigit d = true := hdig d (List.mem_cons_self d ds)
    have htake : List.takeWhile isdigit ((d :: ds) ++ rest) = d :: ds := by
      rw [List.takeWhile_append_of_pos hdig]
      cases rest with
      | nil => simp
      | cons c t =>
        have hc : isdigit c = false := hrest c (by simp)
        rw [List.takeWhile_cons_of_neg (by simp [hc]), List.append_nil]
    have hdrop : s.toList.dropWhile isspace = sign ++ ((d :: ds) ++ rest) := by
      rw [hsplit, List.append_assoc, List.append_assoc, List.dropWhile_append_of_pos hws]
      rcases hsign with rfl | rfl | rfl
      · rw [List.nil_append, List.cons_append,
          List.dropWhile_cons_of_neg (by simp [isspace_eq_false_of_isdigit hd])]
      · exact List.dropWhile_cons_of_neg (by decide)
      · exact List.dropWhile_cons_of_neg (by decide)
    have hread : readSign (sign ++ ((d :: ds) ++ rest))
        = (decide (sign = ['-']), (d :: ds) ++ rest) := by
      rcases hsign with rfl | rfl | rfl
      · rw [List.nil_append, List.cons_append, readSign_of_isdigit _ hd]
        rfl
      · rfl
      · rfl
    rw [hdrop, hread]
    simp only [htake]
    refine ⟨by simp, ?_, hlo, hhi⟩
    rw [hv]
    by_cases hs : sign = ['-']
    · simp [hs]
    · simp [hs]

/-- C7 (as stated, refuted): the token `12x` is not a valid integer, yet the
constructor accepts it and builds a request with `a = 12`. -/
theorem ctor_accepts_trailing_characters :
    validInteger "12x" = false
      ∧ (Integral.ctor ["prog", "12x", "1", "1000", "4"]).result = .ok ⟨12, 1, 1000, 4⟩ := by
  decide

/-- The token `x` of the specification's example is rejected with `invalid_argument`. -/
theorem ctor_rejects_token_without_digits :
    (Integral.ctor ["prog", "x", "1", "1000", "4"]).result
      = .error (.invalid_argument "stoi") := by
  decide

/-- C7 (amended): for every list of exactly four tokens, the constructor builds a
request exactly when each token begins, after optional white space, with an
optionally signed run of decimal digits whose value is an `int`; the fields of the
request are the values of these leading numerals (what follows them is ignored);
when some token has no such leading numeral the constructor raises and builds no
request. -/
theorem ctor_result_iff_leadingInteger (prog s1 s2 s3 s4 : String) :
    (∀ r : Integral, (Integral.ctor [prog, s1, s2, s3, s4]).result = .ok r
        ↔ LeadingInteger s1 r.a ∧ LeadingInteger s2 r.b
            ∧ LeadingInteger s3 r.n ∧ LeadingInteger s4 r.tn)
      ∧ (((¬ ∃ v, LeadingInteger s1 v) ∨ (¬ ∃ v, LeadingInteger s2 v)
            ∨ (¬ ∃ v, LeadingInteger s3 v) ∨ (¬ ∃ v, LeadingInteger s4 v))
          → ∃ e, (Integral.ctor [prog, s1, s2, s3, s4]).result = .error e) := by
  have hiff : ∀ r : Integral, (Integral.ctor [prog, s1, s2, s3, s4]).result = .ok r
      ↔ LeadingInteger s1 r.a ∧ LeadingInteger s2 r.b
          ∧ LeadingInteger s3 r.n ∧ LeadingInteger s4 r.tn := by
    intro r
    simp only [← stoi_eq_ok_iff]
    unfold Integral.ctor
    simp only [List.length_cons, List.length_nil, List.getD_cons_succ, List.getD_cons_zero]
    rcases r with ⟨a, b, n, tn⟩
    cases h1 : stoi s1 <;> cases h2 : stoi s2 <;> cases h3 : stoi s3 <;> cases h4 : stoi s4 <;>
      simp [Integral.mk.injEq]
  refine ⟨hiff, ?_⟩
  intro hnone
  cases hres : (Integral.ctor [prog, s1, s2, s3, s4]).result with
  | error e => exact ⟨e, rfl⟩
  | ok r =>
    obtain ⟨h1, h2, h3, h4⟩ := (hiff r).mp hres
    rcases hnone with h | h | h | h
    · exact absurd ⟨_, h1⟩ h
    · exact absurd ⟨_, h2⟩ h
    · exact absurd ⟨_, h3⟩ h
    · exact absurd ⟨_, h4⟩ h

/-! ## C8 -/

theorem one_lt_integralFunction (x : ℝ) : 1 < Integral.integralFunction x := by
  unfold Integral.integralFunction
  rw [Real.lt_sqrt (by norm_num)]
  have := Real.exp_pos x
  linarith

theorem mem_forRange_natCast {s e : ℕ} {i : ℤ} (hi : i ∈ forRange (s : ℤ) (e : ℤ)) :
    ∃ k : ℕ, i = (k : ℤ) ∧ s ≤ k ∧ k < e := by
  rw [forRange_natCast, List.mem_map] at hi
  obtain ⟨j, hj, rfl⟩ := hi
  have := List.mem_range.mp hj
  exact ⟨s + j, rfl, by omega, by omega⟩

/-- C9: for `0 <= a <= b <= 50` and `int` values `n >= 1`, `tn >= 1`, every sample
point `x_i = a + i*h` and `x_next = a + (i+1)*h` that a worker evaluates lies in
`[a, b]`; and for every real `x` the radicand `1 + e^x` is positive and
`integralFunction x > 1`. -/
theorem sample_points_in_interval (a b n tn : ℤ)
    (ha : 0 ≤ a) (hab : a ≤ b) (hb : b ≤ 50)
    (hn : 1 ≤ n) (hn_max : n ≤ INT_MAX) (htn : 1 ≤ tn) (htn_max : tn ≤ INT_MAX) :
    (∃ ranges, (Integral.mk a b n tn).threadRanges = .ok ranges
        ∧ ∀ r ∈ ranges, ∀ i ∈ forRange r.1 r.2,
            (a : ℝ) ≤ (Integral.mk a b n tn).x_i (Integral.mk a b n tn).h i
              ∧ (Integral.mk a b n tn).x_i (Integral.mk a b n tn).h i ≤ (b : ℝ)
              ∧ (a : ℝ) ≤ (Integral.mk a b n tn).x_next (Integral.mk a b n tn).h i
              ∧ (Integral.mk a b n tn).x_next (Integral.mk a b n tn).h i ≤ (b : ℝ))
      ∧ (∀ x : ℝ, 0 < 1 + Real.exp x ∧ 1 < Integral.integralFunction x) := by
  refine ⟨?_, fun x => ⟨by positivity, one_lt_integralFunction x⟩⟩
  obtain ⟨N, rfl⟩ := Int.eq_ofNat_of_zero_le (le_trans zero_le_one hn)
  obtain ⟨T, rfl⟩ := Int.eq_ofNat_of_zero_le (le_trans zero_le_one htn)
  have hT : 1 ≤ T := by omega
  refine ⟨_, threadRanges_natCast a b N T hT hn_max htn_max, ?_⟩
  intro r hr i hi
  obtain ⟨t, ht, rfl⟩ := List.mem_map.mp hr
  have ht' : t < T := List.mem_range.mp ht
  obtain ⟨k, rfl, _, hk⟩ := mem_forRange_natCast hi
  have hkN : k < N := lt_of_lt_of_le hk (natStop_le N T t ht')
  have hN0 : (0 : ℝ) < (N : ℝ) := by
    have : 0 < N := by omega
    exact_mod_cast this
  have hh : (Integral.mk a b N T).h = ((b : ℝ) - (a : ℝ)) / (N : ℝ) := by
    unfold Integral.h
    show ((wrapInt (b - a) : ℤ) : ℝ) / ((N : ℤ) : ℝ) = _
    rw [wrapInt_of_inRange (by unfold INT_MIN; omega) (by unfold INT_MAX; omega)]
    push_cast
    rfl
  have hw : wrapInt ((k : ℤ) + 1) = (k : ℤ) + 1 := by
    unfold INT_MAX at hn_max
    apply wrapInt_of_inRange
    · unfold INT_MIN; omega
    · unfold INT_MAX; omega
  have hab' : (0 : ℝ) ≤ (b : ℝ) - (a : ℝ) := by
    have : (a : ℝ) ≤ (b : ℝ) := by exact_mod_cast hab
    linarith
  have hh0 : 0 ≤ ((b : ℝ) - (a : ℝ)) / (N : ℝ) := div_nonneg hab' hN0.le
  have hNh : (N : ℝ) * (((b : ℝ) - (a : ℝ)) / (N : ℝ)) = (b : ℝ) - (a : ℝ) := by
    field_simp
  have hk0 : (0 : ℝ) ≤ (k : ℝ) := Nat.cast_nonneg k
  have hk1 : (k : ℝ) + 1 ≤ (N : ℝ) := by exact_mod_cast hkN
  unfold Integral.x_i Integral.x_next
  rw [hh, hw]
  push_cast
  have e1 : (k : ℝ) * (((b : ℝ) - (a : ℝ)) / (N : ℝ)) ≤ (N : ℝ) * (((b : ℝ) - (a : ℝ)) / (N : ℝ)) :=
    mul_le_mul_of_nonneg_right (by linarith) hh0
  have e2 : ((k : ℝ) + 1) * (((b : ℝ) - (a : ℝ)) / (N : ℝ))
      ≤ (N : ℝ) * (((b : ℝ) - (a : ℝ)) / (N : ℝ)) :=
    mul_le_mul_of_nonneg_right hk1 hh0
  have e3 : 0 ≤ (k : ℝ) * (((b : ℝ) - (a : ℝ)) / (N : ℝ)) := mul_nonneg hk0 hh0
  have e4 : 0 ≤ ((k : ℝ) + 1) * (((b : ℝ) - (a : ℝ)) / (N : ℝ)) :=
    mul_nonneg (by linarith) hh0
  refine ⟨?_, ?_, ?_, ?_⟩ <;> linarith

/-- Witness for C9: `a = 0`, `b = 50`, `n = 1000`, `tn = 4`. -/
theorem sample_points_in_interval_witness :
    (∃ ranges, (Integral.mk 0 50 1000 4).threadRanges = .ok ranges
        ∧ ∀ r ∈ ranges, ∀ i ∈ forRange r.1 r.2,
            ((0 : ℤ) : ℝ) ≤ (Integral.mk 0 50 1000 4).x_i (Integral.mk 0 50 1000 4).h i
              ∧ (Integral.mk 0 50 1000 4).x_i (Integral.mk 0 50 1000 4).h i ≤ ((50 : ℤ) : ℝ)
              ∧ ((0 : ℤ) : ℝ) ≤ (Integral.mk 0 50 1000 4).x_next (Integral.mk 0 50 1000 4).h i
              ∧ (Integral.mk 0 50 1000 4).x_next (Integral.mk 0 50 1000 4).h i ≤ ((50 : ℤ) : ℝ))
      ∧ (∀ x : ℝ, 0 < 1 + Real.exp x ∧ 1 < Integral.integralFunction x) :=
  sample_points_in_interval 0 50 1000 4 (by decide) (by decide) (by decide) (by decide)
    (by decide) (by decide) (by decide)

/-! ## C10 -/

theorem trapezoid_error_bound (f : ℝ → ℝ) (hmono : Monotone f) (hcont : Continuous f)
    (a b : ℝ) (hab : a ≤ b) (N : ℕ) (hN : 1 ≤ N) :
    |(∑ i in Finset.range N,
        (f (a + (i : ℝ) * ((b - a) / (N : ℝ))) + f (a + ((i : ℝ) + 1) * ((b - a) / (N : ℝ))))
          * ((b - a) / (N : ℝ)) / 2)
        - ∫ t in a..b, f t| ≤ (b - a) / (N : ℝ) * (f b - f a) / 2 := by
  have hN0 : (0 : ℝ) < (N : ℝ) := by exact_mod_cast hN
  have hh0 : 0 ≤ (b - a) / (N : ℝ) := div_nonneg (sub_nonneg.mpr hab) hN0.le
  generalize hh : (b - a) / (N : ℝ) = h at hh0 ⊢
  have hNh : (N : ℝ) * h = b - a := by rw [← hh]; field_simp
  let x : ℕ → ℝ := fun k => a + (k : ℝ) * h
  have hx0 : x 0 = a := by simp [x]
  have hxN : x N = b := by simp only [x]; linarith
  have hstep : ∀ k, x (k + 1) = x k + h := by
    intro k
    simp only [x]
    push_cast
    ring
  have hsum : ∑ k in Finset.range N, ∫ t in (x k)..(x (k + 1)), f t = ∫ t in a..b, f t := by
    rw [intervalIntegral.sum_integral_adjacent_intervals
      (fun k _ => hcont.intervalIntegrable _ _), hx0, hxN]
  have hlow : ∀ k, f (x k) * h ≤ ∫ t in (x k)..(x (k + 1)), f t := by
    intro k
    have hle : x k ≤ x (k + 1) := by rw [hstep]; linarith
    have key : ∫ _ in (x k)..(x (k + 1)), f (x k) ≤ ∫ t in (x k)..(x (k + 1)), f t :=
      intervalIntegral.integral_mono_on hle
        ((continuous_const : Continuous fun _ : ℝ => f (x k)).intervalIntegrable _ _)
        (hcont.intervalIntegrable _ _) (fun t ht => hmono ht.1)
    rw [intervalIntegral.integral_const, hstep, add_sub_cancel_left, smul_eq_mul] at key
    rw [hstep]
    linarith
  have hupp : ∀ k, ∫ t in (x k)..(x (k + 1)), f t ≤ f (x (k + 1)) * h := by
    intro k
    have hle : x k ≤ x (k + 1) := by rw [hstep]; linarith
    have key : ∫ t in (x k)..(x (k + 1)), f t ≤ ∫ _ in (x k)..(x (k + 1)), f (x (k + 1)) :=
      intervalIntegral.integral_mono_on hle
        (hcont.intervalIntegrable _ _)
        ((continuous_const : Continuous fun _ : ℝ => f (x (k + 1))).intervalIntegrable _ _)
        (fun t ht => hmono ht.2)
    rw [intervalIntegral.integral_const, hstep, add_sub_cancel_left, smul_eq_mul] at key
    rw [hstep]
    linarith
  have hL : ∑ k in Finset.range N, f (x k) * h ≤ ∫ t in a..b, f t := by
    rw [← hsum]
    exact Finset.sum_le_sum (fun k _ => hlow k)
  have hR : ∫ t in a..b, f t ≤ ∑ k in Finset.range N, f (x (k + 1)) * h := by
    rw [← hsum]
    exact Finset.sum_le_sum (fun k _ => hupp k)
  have htel : ∑ k in Finset.range N, f (x (k + 1)) * h - ∑ k in Finset.range N, f (x k) * h
      = h * (f b - f a) := by
    rw [← Finset.sum_sub_distrib]
    have : ∀ k ∈ Finset.range N, f (x (k + 1)) * h - f (x k) * h = (f (x (k + 1)) - f (x k)) * h :=
      fun k _ => by ring
    rw [Finset.sum_congr rfl this, ← Finset.sum_mul, Finset.sum_range_sub (fun k => f (x k)),
      hx0, hxN]
    ring
  have hT : ∑ i in Finset.range N,
      (f (a + (i : ℝ) * h) + f (a + ((i : ℝ) + 1) * h)) * h / 2
      = (∑ k in Finset.range N, f (x k) * h + ∑ k in Finset.range N, f (x (k + 1)) * h) / 2 := by
    rw [← Finset.sum_add_distrib, Finset.sum_div]
    apply Finset.sum_congr rfl
    intro i _
    simp only [x]
    push_cast
    ring
  rw [hT, abs_le]
  constructor <;> linarith

theorem integralFunction_monotone : Monotone Integral.integralFunction := by
  intro x y hxy
  unfold Integral.integralFunction
  exact Real.sqrt_le_sqrt (by linarith [Real.exp_le_exp.mpr hxy])

theorem integralFunction_continuous : Continuous Integral.integralFunction := by
  unfold Integral.integralFunction
  exact Real.continuous_sqrt.comp (continuous_const.add Real.continuous_exp)

theorem trapezoidalSum_error_bound (a b : ℤ) (hab : a ≤ b) (N : ℕ) (hN : 1 ≤ N) :
    |trapezoidalSum a b N - ∫ t in (a : ℝ)..(b : ℝ), Integral.integralFunction t|
      ≤ ((b : ℝ) - (a : ℝ)) / (N : ℝ)
          * (Integral.integralFunction (b : ℝ) - Integral.integralFunction (a : ℝ)) / 2 :=
  trapezoid_error_bound Integral.integralFunction integralFunction_monotone
    integralFunction_continuous (a : ℝ) (b : ℝ) (by exact_mod_cast hab) N hN

theorem trapezoidalSum_tendsto (a b : ℤ) (hab : a ≤ b) :
    Filter.Tendsto (fun N : ℕ => trapezoidalSum a b N) Filter.atTop
      (nhds (∫ t in (a : ℝ)..(b : ℝ), Integral.integralFunction t)) := by
  rw [tendsto_iff_norm_sub_tendsto_zero]
  have hlim : Filter.Tendsto
      (fun N : ℕ => (((b : ℝ) - (a : ℝ))
          * (Integral.integralFunction (b : ℝ) - Integral.integralFunction (a : ℝ)) / 2) / (N : ℝ))
      Filter.atTop (nhds 0) :=
    tendsto_const_div_atTop_nhds_zero_nat _
  refine squeeze_zero' (Filter.Eventually.of_forall fun N => norm_nonneg _) ?_ hlim
  filter_upwards [Filter.eventually_ge_atTop 1] with N hN
  rw [Real.norm_eq_abs]
  have hbound := trapezoidalSum_error_bound a b hab N hN
  have heq : ((b : ℝ) - (a : ℝ)) / (N : ℝ)
      * (Integral.integralFunction (b : ℝ) - Integral.integralFunction (a : ℝ)) / 2
      = (((b : ℝ) - (a : ℝ))
          * (Integral.integralFunction (b : ℝ) - Integral.integralFunction (a : ℝ)) / 2) / (N : ℝ) := by
    ring
  rw [heq] at hbound
  exact hbound

/-- C10 (as stated, refuted): at `a = -2147483648 <= b = 1` the subtraction `b - a`
overflows to `-2147483647`, so for every `int` value `n >= 1` and `tn >= 1` the value
`calculateIntegral` returns is negative, while the exact integral of
`sqrt(1 + e^x)` over `[a, b]` is positive: the values do not tend to it. -/
theorem calculateIntegral_negative_of_overflow :
    (0 < ∫ t in ((-2147483648 : ℤ) : ℝ)..((1 : ℤ) : ℝ), Integral.integralFunction t)
      ∧ (∀ n tn : ℤ, 1 ≤ n → n ≤ INT_MAX → 1 ≤ tn → tn ≤ INT_MAX →
          ∃ v, (Integral.mk (-2147483648) 1 n tn).calculateIntegral = .ok v ∧ v < 0) := by
  refine ⟨?_, ?_⟩
  · exact intervalIntegral.intervalIntegral_pos_of_pos_on
      (integralFunction_continuous.intervalIntegrable _ _)
      (fun t _ => integralFunction_pos t) (by norm_num)
  · intro n tn hn hn_max htn htn_max
    obtain ⟨N, rfl⟩ := Int.eq_ofNat_of_zero_le (le_trans zero_le_one hn)
    obtain ⟨T, rfl⟩ := Int.eq_ofNat_of_zero_le (le_trans zero_le_one htn)
    refine ⟨_, calculateIntegral_natCast (-2147483648) 1 N T (by omega) hn_max htn_max, ?_⟩
    have hN : (0 : ℝ) < ((N : ℤ) : ℝ) := by exact_mod_cast (by omega : (0 : ℤ) < (N : ℤ))
    have hh : (Integral.mk (-2147483648) 1 (N : ℤ) (T : ℤ)).h < 0 := by
      unfold Integral.h
      have hw : wrapInt (1 - (-2147483648)) = -2147483647 := by decide
      show ((wrapInt (1 - (-2147483648)) : ℤ) : ℝ) / ((N : ℤ) : ℝ) < 0
      rw [hw]
      exact div_neg_of_neg_of_pos (by norm_num) hN
    apply Finset.sum_neg
    · intro i _
      exact term_neg _ _ _ hh
    · exact ⟨0, Finset.mem_range.mpr (by omega)⟩

/-- The partition count is an `int`: the largest one the constructor accepts is
`2147483647`, and for the token `2147483648` it raises `out_of_range`. -/
theorem ctor_rejects_partition_count_above_INT_MAX :
    (Integral.ctor ["prog", "0", "1", "2147483647", "1"]).result = .ok ⟨0, 1, 2147483647, 1⟩
      ∧ (Integral.ctor ["prog", "0", "1", "2147483648", "1"]).result
          = .error (.out_of_range "stoi") := by
  decide

/-- C10 (amended): for fixed `int` values `a <= b` with `b - a` representable and any
rule choosing an `int` `tn >= 1`, for every `int` value `n >= 1` `calculateIntegral`
returns the composite trapezoidal sum `T_n`, which differs from the exact integral of
`sqrt(1 + e^x)` over `[a, b]` by at most `(b - a) / n * (f(b) - f(a)) / 2`; and the
sequence `T_n` tends to the exact integral as `n` tends to infinity. -/
theorem calculateIntegral_refinement_converges (a b : ℤ) (hab : a ≤ b)
    (hba : b - a ≤ INT_MAX) (tn : ℕ → ℤ) (htn : ∀ n, 1 ≤ tn n ∧ tn n ≤ INT_MAX) :
    (∀ n : ℕ, 1 ≤ n → (n : ℤ) ≤ INT_MAX →
        (Integral.mk a b n (tn n)).calculateIntegral = .ok (trapezoidalSum a b n)
          ∧ |trapezoidalSum a b n - ∫ t in (a : ℝ)..(b : ℝ), Integral.integralFunction t|
              ≤ ((b : ℝ) - (a : ℝ)) / (n : ℝ)
                  * (Integral.integralFunction (b : ℝ) - Integral.integralFunction (a : ℝ)) / 2)
      ∧ Filter.Tendsto (fun n : ℕ => trapezoidalSum a b n) Filter.atTop
          (nhds (∫ t in (a : ℝ)..(b : ℝ), Integral.integralFunction t)) := by
  refine ⟨?_, trapezoidalSum_tendsto a b hab⟩
  intro n hn hn_max
  refine ⟨?_, trapezoidalSum_error_bound a b hab n hn⟩
  obtain ⟨T, hT⟩ := Int.eq_ofNat_of_zero_le (le_trans zero_le_one (htn n).1)
  have h1 := (htn n).1
  have h2 := (htn n).2
  rw [hT] at h1 h2 ⊢
  exact calculateIntegral_natCast_eq_trapezoidalSum a b n T (by omega) hn_max h2
    (by unfold INT_MIN; omega) hba

/-- Witness for C10 (amended): `a = 0`, `b = 1`, always `tn = 4`. -/
theorem calculateIntegral_refinement_converges_witness :
    (∀ n : ℕ, 1 ≤ n → (n : ℤ) ≤ INT_MAX →
        (Integral.mk 0 1 n 4).calculateIntegral = .ok (trapezoidalSum 0 1 n)
          ∧ |trapezoidalSum 0 1 n - ∫ t in ((0 : ℤ) : ℝ)..((1 : ℤ) : ℝ), Integral.integralFunction t|
              ≤ (((1 : ℤ) : ℝ) - ((0 : ℤ) : ℝ)) / (n : ℝ)
                  * (Integral.integralFunction ((1 : ℤ) : ℝ)
                      - Integral.integralFunction ((0 : ℤ) : ℝ)) / 2)
      ∧ Filter.Tendsto (fun n : ℕ => trapezoidalSum 0 1 n) Filter.atTop
          (nhds (∫ t in ((0 : ℤ) : ℝ)..((1 : ℤ) : ℝ), Integral.integralFunction t)) :=
  calculateIntegral_refinement_converges 0 1 (by decide) (by decide) (fun _ => 4)
    (fun _ => ⟨(by decide : (1 : ℤ) ≤ 4), (by decide : (4 : ℤ) ≤ INT_MAX)⟩)

/-! ## C11 -/

/-- C11: on every argument list for which the constructor raises (wrong count or a
token `std::stoi` rejects), `main` writes nothing to standard output and creates no
worker thread; the run ends with the constructor's exception. -/
theorem main_no_output_on_constructor_error (argv : List String) (e : Exception)
    (hraise : (Integral.ctor argv).result = .error e) :
    (main argv).stdout = [] ∧ (main argv).workers = 0 ∧ (main argv).outcome = .uncaught e := by
  unfold main
  rw [hraise]
  exact ⟨rfl, rfl, rfl⟩

/-- Witness for C11: three positional arguments, and a token without digits. -/
theorem main_no_output_on_constructor_error_witness :
    ((main ["prog", "0", "1", "1000"]).stdout = []
        ∧ (main ["prog", "0", "1", "1000"]).workers = 0
        ∧ (main ["prog", "0", "1", "1000"]).outcome
            = .uncaught (.invalid_argument "Wrong number of arguments"))
      ∧ ((main ["prog", "x", "1", "1000", "4"]).stdout = []
        ∧ (main ["prog", "x", "1", "1000", "4"]).workers = 0
        ∧ (main ["prog", "x", "1", "1000", "4"]).outcome
            = .uncaught (.invalid_argument "stoi")) :=
  ⟨main_no_output_on_constructor_error ["prog", "0", "1", "1000"]
      (.invalid_argument "Wrong number of arguments") (by decide),
    main_no_output_on_constructor_error ["prog", "x", "1", "1000", "4"]
      (.invalid_argument "stoi") (by decide)⟩

/-! ## Order of the merges

The threads add their local sums to `total` in the order the scheduler lets them
take the mutex.  In exact arithmetic that order does not change `total`. -/

theorem merge_order_irrelevant (local_sums merged : List ℝ) (hperm : local_sums.Perm merged) :
    merged.foldl (fun total local_sum => total + local_sum) 0
      = local_sums.foldl (fun total local_sum => total + local_sum) 0 := by
  have hsum : ∀ l : List ℝ, l.foldl (fun total local_sum => total + local_sum) 0 = l.sum := by
    intro l
    rw [List.sum_eq_foldl]
  rw [hsum, hsum]
  exact hperm.symm.sum_eq

/-! ## C13 -/

theorem calculateIntegral_one_one (a b : ℤ) :
    (Integral.mk a b 1 1).calculateIntegral
      = .ok ((Integral.mk a b 1 1).term (Integral.mk a b 1 1).h 0) := by
  have hc := calculateIntegral_natCast a b 1 1 (le_refl 1)
    (by unfold INT_MAX; norm_num) (by unfold INT_MAX; norm_num)
  simp only [Nat.cast_one, Finset.sum_range_one, Nat.cast_zero] at hc
  exact hc

theorem trapezoidalSum_eq_endpointSum (a b : ℤ) (N : ℕ) (hN : 1 ≤ N) :
    trapezoidalSum a b N = endpointSum a b N := by
  obtain ⟨m, rfl⟩ : ∃ m, N = m + 1 := ⟨N - 1, by omega⟩
  unfold trapezoidalSum endpointSum
  have hN0 : ((m + 1 : ℕ) : ℝ) ≠ 0 := by positivity
  have hNh : ((m + 1 : ℕ) : ℝ) * (((b : ℝ) - (a : ℝ)) / ((m + 1 : ℕ) : ℝ)) = (b : ℝ) - (a : ℝ) := by
    field_simp
  generalize (((b : ℝ) - (a : ℝ)) / ((m + 1 : ℕ) : ℝ)) = h at hNh ⊢
  have hterm : ∀ i ∈ Finset.range (m + 1),
      (Integral.integralFunction ((a : ℝ) + (i : ℝ) * h)
        + Integral.integralFunction ((a : ℝ) + ((i : ℝ) + 1) * h)) * h / 2
      = h / 2 * Integral.integralFunction ((a : ℝ) + ((i : ℕ) : ℝ) * h)
        + h / 2 * Integral.integralFunction ((a : ℝ) + ((i + 1 : ℕ) : ℝ) * h) := by
    intro i _
    push_cast
    ring
  rw [Finset.sum_congr rfl hterm, Finset.sum_add_distrib, ← Finset.mul_sum, ← Finset.mul_sum,
    Finset.sum_range_succ' (fun i : ℕ => Integral.integralFunction ((a : ℝ) + ((i : ℕ) : ℝ) * h)),
    Finset.sum_range_succ
      (fun i : ℕ => Integral.integralFunction ((a : ℝ) + ((i + 1 : ℕ) : ℝ) * h)),
    Finset.sum_Ico_eq_sum_range]
  have hb : (a : ℝ) + ((m + 1 : ℕ) : ℝ) * h = (b : ℝ) := by linarith
  have ha : (a : ℝ) + ((0 : ℕ) : ℝ) * h = (a : ℝ) := by simp
  have hshift : ∀ k ∈ Finset.range (m + 1 - 1),
      Integral.integralFunction ((a : ℝ) + ((1 + k : ℕ) : ℝ) * h)
        = Integral.integralFunction ((a : ℝ) + ((k + 1 : ℕ) : ℝ) * h) := by
    intro k _
    rw [Nat.add_comm]
  rw [Finset.sum_congr rfl hshift, hb, ha, Nat.add_sub_cancel]
  ring

/-- C13 (as stated, refuted): at `a = -2147483648`, `b = 2147483647`, `n = 1`,
`tn = 1` the subtraction `b - a` overflows to `-1`, and the value returned is
negative, not the endpoint form with `h = (b - a) / n`. -/
theorem calculateIntegral_ne_endpointSum_of_overflow :
    (Integral.mk (-2147483648) 2147483647 1 1).calculateIntegral
      ≠ .ok (endpointSum (-2147483648) 2147483647 1) := by
  intro hEq
  rw [calculateIntegral_one_one] at hEq
  have hv := Except.ok.inj hEq
  have hh : (Integral.mk (-2147483648) 2147483647 1 1).h = -1 := by
    unfold Integral.h
    have : wrapInt (2147483647 - (-2147483648)) = -1 := by decide
    simp only [this]
    norm_num
  have hneg := term_neg (Integral.mk (-2147483648) 2147483647 1 1)
    (Integral.mk (-2147483648) 2147483647 1 1).h 0 (by rw [hh]; norm_num)
  rw [hv] at hneg
  have hpos : 0 < endpointSum (-2147483648) 2147483647 1 := by
    unfold endpointSum
    have h1 := integralFunction_pos (((-2147483648 : ℤ)) : ℝ)
    have h2 := integralFunction_pos (((2147483647 : ℤ)) : ℝ)
    simp only [Finset.Ico_self, Finset.sum_empty, add_zero]
    have hd : (0 : ℝ) < (((2147483647 : ℤ) : ℝ) - ((-2147483648 : ℤ) : ℝ)) / ((1 : ℕ) : ℝ) := by
      norm_num
    exact mul_pos hd (div_pos (add_pos h1 h2) (by norm_num))
  linarith

/-- C13 (amended): for `int` values `n >= 1`, `tn >= 1` and all `a`, `b` whose
difference `b - a` is representable as an `int`, `calculateIntegral` returns
`h * ((f(a) + f(b)) / 2 + sum over i in [1, n-1] of f(a + i*h))` with
`h = (b - a) / n`. -/
theorem calculateIntegral_eq_endpointSum (a b n tn : ℤ)
    (hn : 1 ≤ n) (hn_max : n ≤ INT_MAX) (htn : 1 ≤ tn) (htn_max : tn ≤ INT_MAX)
    (hlo : INT_MIN ≤ b - a) (hhi : b - a ≤ INT_MAX) :
    (Integral.mk a b n tn).calculateIntegral = .ok (endpointSum a b n.toNat) := by
  obtain ⟨N, rfl⟩ := Int.eq_ofNat_of_zero_le (le_trans zero_le_one hn)
  obtain ⟨T, rfl⟩ := Int.eq_ofNat_of_zero_le (le_trans zero_le_one htn)
  rw [Int.toNat_natCast, ← trapezoidalSum_eq_endpointSum a b N (by omega)]
  exact calculateIntegral_natCast_eq_trapezoidalSum a b N T (by omega) hn_max htn_max hlo hhi

/-- Witness for C13 (amended): `a = 0`, `b = 1`, `n = 1000`, `tn = 4`. -/
theorem calculateIntegral_eq_endpointSum_witness :
    (Integral.mk 0 1 1000 4).calculateIntegral = .ok (endpointSum 0 1 1000) :=
  calculateIntegral_eq_endpointSum 0 1 1000 4 (by decide) (by decide) (by decide) (by decide)
    (by decide) (by decide)

/-! ## C14 -/

theorem forRange_eq_nil (start stop : ℤ) (h : stop ≤ start) : forRange start stop = [] := by
  unfold forRange
  have : (stop - start).toNat = 0 := by omega
  rw [this]
  rfl

theorem calculateIntegral_of_empty_ranges (self : Integral) (ranges : List (ℤ × ℤ))
    (hr : self.threadRanges = .ok ranges) (hempty : ∀ r ∈ ranges, forRange r.1 r.2 = []) :
    self.calculateIntegral = .ok 0 := by
  unfold Integral.calculateIntegral
  rw [hr]
  show Except.ok _ = Except.ok _
  apply congrArg Except.ok
  rw [List.foldl_map]
  apply foldl_add_eq_zero
  intro r hmem
  unfold Integral.localSum
  rw [hempty r hmem]
  rfl

theorem intDiv_neg_natCast (M T : ℕ) (hT : 1 ≤ T) :
    intDiv (-(M : ℤ)) (T : ℤ) = .ok (-((M / T : ℕ) : ℤ)) := by
  unfold intDiv
  have h0 : ¬ ((T : ℤ) = 0) := by omega
  have h1 : ¬ (-(M : ℤ) = INT_MIN ∧ (T : ℤ) = -1) := by omega
  rw [if_neg h0, if_neg h1, Int.neg_tdiv]
  rfl

theorem degenerate_range (a b : ℤ) (M T t : ℕ) (ht : t < T)
    (hM : -(M : ℤ) ≥ INT_MIN) (hT : (T : ℤ) ≤ INT_MAX) :
    (Integral.mk a b (-(M : ℤ)) T).stop (-((M / T : ℕ) : ℤ)) (t : ℤ)
      ≤ Integral.start (-((M / T : ℕ) : ℤ)) (t : ℤ) := by
  unfold INT_MIN at hM
  unfold INT_MAX at hT
  have h1 : t * (M / T) ≤ M := mul_div_le_of_le ht.le
  have hstart : Integral.start (-((M / T : ℕ) : ℤ)) (t : ℤ) = -((t * (M / T) : ℕ) : ℤ) := by
    unfold Integral.start
    have hc : (t : ℤ) * -((M / T : ℕ) : ℤ) = -((t * (M / T) : ℕ) : ℤ) := by
      push_cast; ring
    rw [hc]
    apply wrapInt_of_inRange
    · unfold INT_MIN; omega
    · unfold INT_MAX; omega
  rw [hstart]
  unfold Integral.stop
  have hw : wrapInt ((T : ℤ) - 1) = (T : ℤ) - 1 := by
    apply wrapInt_of_inRange
    · unfold INT_MIN; omega
    · unfold INT_MAX; omega
  simp only [hw]
  by_cases hlast : (t : ℤ) = (T : ℤ) - 1
  · rw [if_pos hlast]
    omega
  · rw [if_neg hlast]
    have h2 : (t + 1) * (M / T) ≤ M := mul_div_le_of_le (by omega)
    have h3 : t * (M / T) ≤ (t + 1) * (M / T) := Nat.mul_le_mul_right _ (Nat.le_succ t)
    have hw1 : wrapInt ((t : ℤ) + 1) = (t : ℤ) + 1 := by
      apply wrapInt_of_inRange
      · unfold INT_MIN; omega
      · unfold INT_MAX; omega
    have hc : ((t : ℤ) + 1) * -((M / T : ℕ) : ℤ) = -(((t + 1) * (M / T) : ℕ) : ℤ) := by
      push_cast; ring
    rw [hw1, hc, wrapInt_of_inRange (by unfold INT_MIN; omega) (by unfold INT_MAX; omega)]
    omega

/-- C14 (as stated, refuted): with `n = -2147483648` and `tn = -1` the quotient
`n / tn` overflows and the division traps: no value is returned. -/
theorem calculateIntegral_traps_on_degenerate_counts :
    (Integral.mk 0 50 (-2147483648) (-1)).calculateIntegral = .error .division_overflow
      ∧ (Integral.mk 0 50 (-2147483648) (-1)).calculateIntegral ≠ .ok 0 := by
  have h : intDiv (-2147483648) (-1) = .error .division_overflow := by decide
  have hc : (Integral.mk 0 50 (-2147483648) (-1)).calculateIntegral
      = .error .division_overflow := by
    unfold Integral.calculateIntegral Integral.threadRanges
    simp only [h]
  refine ⟨hc, ?_⟩
  rw [hc]
  exact fun hEq => by cases hEq

/-- C14 (amended): for `int` values, if `n <= 0` and `tn >= 1`, or if `tn <= -1`, and
it is not the case that `n = INT_MIN` and `tn = -1`, then the index range of every
worker launched is empty (`end <= start`, so the loop body never runs and
`integralFunction` is never evaluated) and `calculateIntegral` returns exactly 0. -/
theorem calculateIntegral_degenerate_counts (a b n tn : ℤ)
    (hn_min : INT_MIN ≤ n) (htn_max : tn ≤ INT_MAX)
    (hdeg : (n ≤ 0 ∧ 1 ≤ tn) ∨ tn ≤ -1)
    (hno : ¬ (n = INT_MIN ∧ tn = -1)) :
    ∃ ranges, (Integral.mk a b n tn).threadRanges = .ok ranges
      ∧ (∀ r ∈ ranges, r.2 ≤ r.1 ∧ forRange r.1 r.2 = [])
      ∧ (Integral.mk a b n tn).calculateIntegral = .ok 0 := by
  have hranges : ∃ ranges, (Integral.mk a b n tn).threadRanges = .ok ranges
      ∧ (∀ r ∈ ranges, r.2 ≤ r.1) := by
    rcases hdeg with ⟨hn, htn⟩ | htn
    · obtain ⟨M, hM⟩ : ∃ M : ℕ, n = -(M : ℤ) := ⟨(-n).toNat, by omega⟩
      obtain ⟨T, rfl⟩ := Int.eq_ofNat_of_zero_le (le_trans zero_le_one htn)
      subst hM
      refine ⟨((List.range T).map fun (t : ℕ) => (t : ℤ)).map fun t =>
        (Integral.start (-((M / T : ℕ) : ℤ)) t,
          (Integral.mk a b (-(M : ℤ)) T).stop (-((M / T : ℕ) : ℤ)) t), ?_, ?_⟩
      · unfold Integral.threadRanges
        show (match intDiv (-(M : ℤ)) (T : ℤ) with
          | .error e => Except.error e
          | .ok n_per_thread => Except.ok ((forRange 0 (T : ℤ)).map fun t =>
              (Integral.start n_per_thread t,
                (Integral.mk a b (-(M : ℤ)) T).stop n_per_thread t))) = _
        rw [intDiv_neg_natCast M T (by omega), forRange_zero_natCast]
      · intro r hr
        rw [List.map_map] at hr
        obtain ⟨t, ht, rfl⟩ := List.mem_map.mp hr
        exact degenerate_range a b M T t (List.mem_range.mp ht) hn_min htn_max
    · refine ⟨[], ?_, fun r hr => absurd hr (List.not_mem_nil r)⟩
      have hd : intDiv n tn = .ok (Int.tdiv n tn) := by
        unfold intDiv
        rw [if_neg (by omega), if_neg hno]
      unfold Integral.threadRanges
      show (match intDiv n tn with
        | .error e => Except.error e
        | .ok n_per_thread => Except.ok ((forRange 0 tn).map fun t =>
            (Integral.start n_per_thread t, (Integral.mk a b n tn).stop n_per_thread t))) = _
      rw [hd, forRange_eq_nil 0 tn (by omega)]
      rfl
  obtain ⟨ranges, hr, hle⟩ := hranges
  have hempty : ∀ r ∈ ranges, forRange r.1 r.2 = [] :=
    fun r hmem => forRange_eq_nil r.1 r.2 (hle r hmem)
  exact ⟨ranges, hr, fun r hmem => ⟨hle r hmem, hempty r hmem⟩,
    calculateIntegral_of_empty_ranges _ ranges hr hempty⟩

/-- Witness for C14 (amended): `n = -5` with `tn = 2`. -/
theorem calculateIntegral_degenerate_counts_witness :
    ∃ ranges, (Integral.mk 0 1 (-5) 2).threadRanges = .ok ranges
      ∧ (∀ r ∈ ranges, r.2 ≤ r.1 ∧ forRange r.1 r.2 = [])
      ∧ (Integral.mk 0 1 (-5) 2).calculateIntegral = .ok 0 :=
  calculateIntegral_degenerate_counts 0 1 (-5) 2 (by decide) (by decide)
    (Or.inl ⟨by decide, by decide⟩) (by decide)

/-! ## C15 -/

theorem integral_le_trapezoid (f : ℝ → ℝ) (hconv : ConvexOn ℝ Set.univ f) (hcont : Continuous f)
    (p q : ℝ) (hpq : p ≤ q) :
    ∫ t in p..q, f t ≤ (q - p) * (f p + f q) / 2 := by
  rcases eq_or_lt_of_le hpq with rfl | hlt
  · simp
  have hd : 0 < q - p := sub_pos.mpr hlt
  have hchord : ∀ t ∈ Set.Icc p q, f t ≤ (f p - (f q - f p) / (q - p) * p) + (f q - f p) / (q - p) * t := by
    intro t ht
    have h1 : 0 ≤ (q - t) / (q - p) := div_nonneg (sub_nonneg.mpr ht.2) hd.le
    have h2 : 0 ≤ (t - p) / (q - p) := div_nonneg (sub_nonneg.mpr ht.1) hd.le
    have h3 : (q - t) / (q - p) + (t - p) / (q - p) = 1 := by field_simp
    have key := hconv.2 (Set.mem_univ p) (Set.mem_univ q) h1 h2 h3
    simp only [smul_eq_mul] at key
    have harg : (q - t) / (q - p) * p + (t - p) / (q - p) * q = t := by
      field_simp
      ring
    rw [harg] at key
    have hrhs : (q - t) / (q - p) * f p + (t - p) / (q - p) * f q
        = (f p - (f q - f p) / (q - p) * p) + (f q - f p) / (q - p) * t := by
      field_simp
      ring
    rw [hrhs] at key
    exact key
  have hlin : Continuous fun t : ℝ =>
      (f p - (f q - f p) / (q - p) * p) + (f q - f p) / (q - p) * t :=
    continuous_const.add (continuous_const.mul continuous_id)
  have hmono : ∫ t in p..q, f t
      ≤ ∫ t in p..q, ((f p - (f q - f p) / (q - p) * p) + (f q - f p) / (q - p) * t) :=
    intervalIntegral.integral_mono_on hpq (hcont.intervalIntegrable _ _)
      (hlin.intervalIntegrable _ _) hchord
  have hval : ∫ t in p..q, ((f p - (f q - f p) / (q - p) * p) + (f q - f p) / (q - p) * t)
      = (q - p) * (f p + f q) / 2 := by
    have h1 : IntervalIntegrable (fun _ : ℝ => f p - (f q - f p) / (q - p) * p)
        MeasureTheory.volume p q := continuous_const.intervalIntegrable _ _
    have h2 : IntervalIntegrable (fun t : ℝ => (f q - f p) / (q - p) * t)
        MeasureTheory.volume p q :=
      (continuous_const.mul continuous_id).intervalIntegrable _ _
    have hadd : ∫ t in p..q, ((f p - (f q - f p) / (q - p) * p) + (f q - f p) / (q - p) * t)
        = (∫ _ in p..q, (f p - (f q - f p) / (q - p) * p))
          + ∫ t in p..q, (f q - f p) / (q - p) * t :=
      intervalIntegral.integral_add h1 h2
    rw [hadd, intervalIntegral.integral_const, intervalIntegral.integral_const_mul, integral_id,
      smul_eq_mul]
    field_simp
    ring
  rw [hval] at hmono
  exact hmono

theorem integral_le_trapezoid_sum (f : ℝ → ℝ) (hconv : ConvexOn ℝ Set.univ f)
    (hcont : Continuous f) (a b : ℝ) (hab : a ≤ b) (N : ℕ) (hN : 1 ≤ N) :
    ∫ t in a..b, f t
      ≤ ∑ i in Finset.range N,
          (f (a + (i : ℝ) * ((b - a) / (N : ℝ))) + f (a + ((i : ℝ) + 1) * ((b - a) / (N : ℝ))))
            * ((b - a) / (N : ℝ)) / 2 := by
  have hN0 : (0 : ℝ) < (N : ℝ) := by exact_mod_cast hN
  have hh0 : 0 ≤ (b - a) / (N : ℝ) := div_nonneg (sub_nonneg.mpr hab) hN0.le
  have hNh : (N : ℝ) * ((b - a) / (N : ℝ)) = b - a := by field_simp
  generalize (b - a) / (N : ℝ) = h at hh0 hNh ⊢
  let x : ℕ → ℝ := fun k => a + (k : ℝ) * h
  have hx0 : x 0 = a := by simp [x]
  have hxN : x N = b := by simp only [x]; linarith
  have hstep : ∀ k, x (k + 1) = x k + h := by
    intro k
    simp only [x]
    push_cast
    ring
  have hsum : ∑ k in Finset.range N, ∫ t in (x k)..(x (k + 1)), f t = ∫ t in a..b, f t := by
    rw [intervalIntegral.sum_integral_adjacent_intervals
      (fun k _ => hcont.intervalIntegrable _ _), hx0, hxN]
  rw [← hsum]
  apply Finset.sum_le_sum
  intro k _
  have hle : x k ≤ x (k + 1) := by rw [hstep]; linarith
  have key := integral_le_trapezoid f hconv hcont (x k) (x (k + 1)) hle
  have e1 : a + (k : ℝ) * h = x k := rfl
  have e2 : a + ((k : ℝ) + 1) * h = x (k + 1) := by simp only [x]; push_cast; ring
  rw [e1, e2]
  have e3 : x (k + 1) - x k = h := by rw [hstep]; ring
  rw [e3] at key
  linarith

theorem sqrt_one_add_exp_convex : ConvexOn ℝ Set.univ (fun x : ℝ => Real.sqrt (1 + Real.exp x)) := by
  have hder : ∀ x : ℝ, HasDerivAt (fun x : ℝ => Real.sqrt (1 + Real.exp x))
      (Real.exp x / (2 * Real.sqrt (1 + Real.exp x))) x := by
    intro x
    have h1 : HasDerivAt (fun y : ℝ => 1 + Real.exp y) (Real.exp x) x :=
      (Real.hasDerivAt_exp x).const_add 1
    exact h1.sqrt (by positivity)
  have hdiff : Differentiable ℝ (fun x : ℝ => Real.sqrt (1 + Real.exp x)) :=
    fun x => (hder x).differentiableAt
  have hderiv : deriv (fun x : ℝ => Real.sqrt (1 + Real.exp x))
      = fun x => Real.exp x / (2 * Real.sqrt (1 + Real.exp x)) :=
    funext fun x => (hder x).deriv
  apply Monotone.convexOn_univ_of_deriv hdiff
  rw [hderiv]
  intro x y hxy
  have hu : 0 < Real.exp x := Real.exp_pos x
  have hv : 0 < Real.exp y := Real.exp_pos y
  have huv : Real.exp x ≤ Real.exp y := Real.exp_le_exp.mpr hxy
  have hsu : 0 < Real.sqrt (1 + Real.exp x) := Real.sqrt_pos.mpr (by positivity)
  have hsv : 0 < Real.sqrt (1 + Real.exp y) := Real.sqrt_pos.mpr (by positivity)
  have hsu2 : Real.sqrt (1 + Real.exp x) * Real.sqrt (1 + Real.exp x) = 1 + Real.exp x :=
    Real.mul_self_sqrt (by positivity)
  have hsv2 : Real.sqrt (1 + Real.exp y) * Real.sqrt (1 + Real.exp y) = 1 + Real.exp y :=
    Real.mul_self_sqrt (by positivity)
  show Real.exp x / (2 * Real.sqrt (1 + Real.exp x)) ≤ Real.exp y / (2 * Real.sqrt (1 + Real.exp y))
  rw [div_le_div_iff₀ (by positivity) (by positivity)]
  generalize Real.exp x = u at *
  generalize Real.exp y = v at *
  generalize Real.sqrt (1 + u) = su at *
  generalize Real.sqrt (1 + v) = sv at *
  have hkey : u * sv ≤ v * su := by
    rw [mul_self_le_mul_self_iff (by positivity) (by positivity)]
    have e1 : u * sv * (u * sv) = u * u * (1 + v) := by rw [← hsv2]; ring
    have e2 : v * su * (v * su) = v * v * (1 + u) := by rw [← hsu2]; ring
    rw [e1, e2]
    nlinarith [mul_nonneg (sub_nonneg.mpr huv) (by positivity : 0 ≤ v + u + u * v)]
  linarith

theorem integralFunction_convex : ConvexOn ℝ Set.univ Integral.integralFunction :=
  sqrt_one_add_exp_convex

theorem integral_le_trapezoidalSum (a b : ℤ) (hab : a ≤ b) (N : ℕ) (hN : 1 ≤ N) :
    ∫ t in (a : ℝ)..(b : ℝ), Integral.integralFunction t ≤ trapezoidalSum a b N :=
  integral_le_trapezoid_sum Integral.integralFunction integralFunction_convex
    integralFunction_continuous (a : ℝ) (b : ℝ) (by exact_mod_cast hab) N hN

/-- C15 (as stated, refuted): at `a = -2147483648 < b = 0`, `n = 1`, `tn = 1` the
subtraction `b - a` overflows to `-2147483648`, the value returned is negative and
lies below the exact integral of `sqrt(1 + e^x)` over `[a, b]`. -/
theorem calculateIntegral_underestimates_of_overflow :
    ∃ v, (Integral.mk (-2147483648) 0 1 1).calculateIntegral = .ok v
      ∧ v < ∫ t in ((-2147483648 : ℤ) : ℝ)..((0 : ℤ) : ℝ), Integral.integralFunction t := by
  refine ⟨_, calculateIntegral_one_one (-2147483648) 0, ?_⟩
  have hh : (Integral.mk (-2147483648) 0 1 1).h = -2147483648 := by
    unfold Integral.h
    have : wrapInt (0 - (-2147483648)) = -2147483648 := by decide
    simp only [this]
    norm_num
  have hneg := term_neg (Integral.mk (-2147483648) 0 1 1)
    (Integral.mk (-2147483648) 0 1 1).h 0 (by rw [hh]; norm_num)
  have hint : 0 ≤ ∫ t in ((-2147483648 : ℤ) : ℝ)..((0 : ℤ) : ℝ), Integral.integralFunction t :=
    intervalIntegral.integral_nonneg (by norm_num) (fun t _ => (integralFunction_pos t).le)
  linarith

/-- C15 (amended): for `int` values `a < b` whose difference `b - a` is representable
as an `int`, every `n >= 1` and `tn >= 1`, the value `calculateIntegral` returns is
greater than or equal to the exact integral of `sqrt(1 + e^x)` over `[a, b]`. -/
theorem calculateIntegral_ge_integral (a b n tn : ℤ) (hab : a < b) (hhi : b - a ≤ INT_MAX)
    (hn : 1 ≤ n) (hn_max : n ≤ INT_MAX) (htn : 1 ≤ tn) (htn_max : tn ≤ INT_MAX) :
    ∃ v, (Integral.mk a b n tn).calculateIntegral = .ok v
      ∧ ∫ t in (a : ℝ)..(b : ℝ), Integral.integralFunction t ≤ v := by
  obtain ⟨N, rfl⟩ := Int.eq_ofNat_of_zero_le (le_trans zero_le_one hn)
  obtain ⟨T, rfl⟩ := Int.eq_ofNat_of_zero_le (le_trans zero_le_one htn)
  exact ⟨trapezoidalSum a b N,
    calculateIntegral_natCast_eq_trapezoidalSum a b N T (by omega) hn_max htn_max
      (by unfold INT_MIN; omega) hhi,
    integral_le_trapezoidalSum a b hab.le N (by omega)⟩

/-- Witness for C15 (amended): `a = 0`, `b = 1`, `n = 1000`, `tn = 4`. -/
theorem calculateIntegral_ge_integral_witness :
    ∃ v, (Integral.mk 0 1 1000 4).calculateIntegral = .ok v
      ∧ ∫ t in ((0 : ℤ) : ℝ)..((1 : ℤ) : ℝ), Integral.integralFunction t ≤ v :=
  calculateIntegral_ge_integral 0 1 1000 4 (by decide) (by decide) (by decide) (by decide)
    (by decide) (by decide)

end Task6
